import Mathlib

/-!
# Verification of the network-propagation model (`src/elements.py`)

Shallow embedding of the repository's core classes:

* `Signal_information` — mutable record of a signal's power, noise, latency and
  remaining path; mutation is modelled by explicit state passing.
* `Node`, `Line` — vertices and directed edges.  In Python, `Node.successive`
  maps a line key to the `Line` *object* and `Line.successive` maps a node
  label to the `Node` object; both objects are exactly the entries of the
  central `Network.nodes` / `Network.lines` registries (the only code that
  populates them, `Network.connect`, assigns `self.lines[ab]` and
  `self.nodes[b_label]`).  Since the references are cyclic, the embedding
  stores the registry *keys* in `successive` and resolves them through the
  owning `Network`, which is observationally identical for all code in the
  repository.
* `Network` — the registries plus `connect`, `find_paths` and `propagate`.

Python floats are modelled as exact rationals (`ℚ`), and `math.hypot` (used
once, for line lengths in `connect`) is passed in as an explicit parameter
`hyp : ℚ → ℚ → ℚ` because the Euclidean norm is not rational-valued;
`ratHypot` below instantiates it exactly on perfect squares.  Fallible Python
code (`KeyError` from dict lookups) is modelled with `Except String`.
Python dicts are modelled as ordered association lists with first-match
lookup and insert-or-replace-in-place update, matching dict insertion-order
semantics.
-/

/-- First-match lookup in an ordered association list (Python `d[k]` /
`k in d`). -/
def dictLookup (k : String) : List (String × α) → Option α
  | [] => none
  | (k', v) :: t => if k' = k then some v else dictLookup k t

/-- Python `d[k] = v`: replace in place if the key is present, else append
(dict insertion-order semantics). -/
def dictInsert (k : String) (v : α) : List (String × α) → List (String × α)
  | [] => [(k, v)]
  | (k', v') :: t => if k' = k then (k, v) :: t else (k', v') :: dictInsert k v t

/-- Key-set insert used for `successive` maps whose stored value is the
registry entry at that very key: keep if present, else append. -/
def keyInsert (k : String) (l : List String) : List String :=
  if k ∈ l then l else l ++ [k]

/-- Python `list(xs)`: a fresh list with the same elements. -/
def pyListCopy (l : List String) : List String := l.foldr List.cons []

/-- Boolean test for an `.ok` result, specialised to our error type. -/
def exceptOk (e : Except String α) : Bool :=
  match e with
  | .ok _ => true
  | .error _ => false

/-- Boolean test for an `.error` result (an uncaught Python exception). -/
def exceptErr (e : Except String α) : Bool :=
  match e with
  | .ok _ => false
  | .error _ => true

/-- Value of an `.ok` result, with a default for `.error`. -/
def exceptD (e : Except String α) (d : α) : α :=
  match e with
  | .ok a => a
  | .error _ => d

/-- Python `class Signal_information` (`elements.py` lines 11-30): power, noise and
latency accumulators plus the remaining path. -/
structure Signal_information where
  signal_power : ℚ
  noise_power : ℚ
  latency : ℚ
  path : List String
  deriving Repr, DecidableEq

namespace Signal_information

/-- Python `Signal_information.__init__`: noise and latency start at `0.0`; the path
argument is copied (`list(path)`). -/
def init (signal_power : ℚ) (path : List String) : Signal_information :=
  { signal_power := signal_power
    noise_power := 0
    latency := 0
    path := pyListCopy path }

/-- Python `update_signal_power(increment)`. -/
def update_signal_power (s : Signal_information) (increment : ℚ) : Signal_information :=
  { s with signal_power := s.signal_power + increment }

/-- Python `update_noise_power(increment)`. -/
def update_noise_power (s : Signal_information) (increment : ℚ) : Signal_information :=
  { s with noise_power := s.noise_power + increment }

/-- Python `update_latency(increment)`. -/
def update_latency (s : Signal_information) (increment : ℚ) : Signal_information :=
  { s with latency := s.latency + increment }

/-- Python `update_path()`: `self.path.pop(0)` when non-empty, no-op otherwise. -/
def update_path (s : Signal_information) : Signal_information :=
  match s.path with
  | [] => s
  | _ :: t => { s with path := t }

end Signal_information

/-- Python `class Node` (`elements.py` lines 36-52).  `successive` holds the keys of
its outgoing lines (each key refers to the `Line` stored at that key in
`Network.lines`, which is what `Network.connect` assigns). -/
structure Node where
  label : String
  position : ℚ × ℚ
  connected_nodes : List String
  successive : List String
  deriving Repr, DecidableEq

/-- Python `class Line` (`elements.py` lines 58-85).  `successive` holds the labels
of destination nodes (each refers to the `Node` stored at that label in
`Network.nodes`, which is what `Network.connect` assigns). -/
structure Line where
  label : String
  length : ℚ
  successive : List String
  deriving Repr, DecidableEq

namespace Line

/-- Python `latency_generation()`: `length / v` with `c = 3e8`, `v = (2/3) * c`. -/
def latency_generation (l : Line) : ℚ :=
  let c : ℚ := 3 * 10 ^ 8
  let v : ℚ := (2 / 3) * c
  l.length / v

/-- Python `noise_generation(signal_power)`: `1e-9 * signal_power * length`. -/
def noise_generation (l : Line) (signal_power : ℚ) : ℚ :=
  (1 / 10 ^ 9) * signal_power * l.length

end Line

/-- Python `class Network` (`elements.py` lines 91-158): the registries of nodes and
lines, keyed by label resp. concatenated label pair. -/
structure Network where
  nodes : List (String × Node)
  lines : List (String × Line)
  deriving Repr, DecidableEq

@[simp] theorem Signal_information.update_path_path (s : Signal_information) :
    s.update_path.path = s.path.tail := by
  cases h : s.path <;> simp [Signal_information.update_path, h]

@[simp] theorem Signal_information.update_latency_path (s : Signal_information) (q : ℚ) :
    (s.update_latency q).path = s.path := rfl

@[simp] theorem Signal_information.update_noise_power_path (s : Signal_information) (q : ℚ) :
    (s.update_noise_power q).path = s.path := rfl

/-- The in-place state update `Line.propagate` performs before forwarding
(`elements.py` lines 76-79): `update_latency(latency_generation())` then
`update_noise_power(noise_generation(signal_power))`; the latency update
leaves `signal_power` untouched, so the noise increment is computed from the
signal's power on entry. -/
def Line.applyTo (line : Line) (sig : Signal_information) : Signal_information :=
  (sig.update_latency line.latency_generation).update_noise_power
    (line.noise_generation sig.signal_power)

@[simp] theorem Line.applyTo_path (line : Line) (sig : Signal_information) :
    (line.applyTo sig).path = sig.path := rfl

mutual

/-- Python `Node.propagate` (`elements.py` lines 43-52): consume this node from the
path; if a node remains, fetch the line keyed `self.label + next_node` from
`successive` (a missing key is a `KeyError`) and delegate to it.  The stored
reference is resolved through the owning network's `lines` registry. -/
def Node.propagate (net : Network) (node : Node) (sig : Signal_information) :
    Except String Signal_information :=
  match h : sig.update_path.path with
  | [] => .ok sig.update_path
  | next :: _ =>
    if node.label ++ next ∈ node.successive then
      match dictLookup (node.label ++ next) net.lines with
      | some line => Line.propagate net line sig.update_path
      | none => .error "KeyError"
    else .error "KeyError"
termination_by 2 * sig.path.length
decreasing_by
  simp only [Signal_information.update_path_path, List.length_tail] at h ⊢
  have hne : sig.path ≠ [] := by intro hp; rw [hp] at h; simp at h
  have := List.length_pos.mpr hne
  omega

/-- Python `Line.propagate` (`elements.py` lines 74-85): add this hop's latency and
noise, then forward to the destination node named by the path head (a
missing entry is a `KeyError`).  The stored reference is resolved through
the owning network's `nodes` registry. -/
def Line.propagate (net : Network) (line : Line) (sig : Signal_information) :
    Except String Signal_information :=
  match h : (line.applyTo sig).path with
  | [] => .ok (line.applyTo sig)
  | next :: _ =>
    if next ∈ line.successive then
      match dictLookup next net.nodes with
      | some node => Node.propagate net node (line.applyTo sig)
      | none => .error "KeyError"
    else .error "KeyError"
termination_by 2 * sig.path.length + 1
decreasing_by
  simp only [Line.applyTo_path]
  omega

end

/-- Python `Network.propagate` (`elements.py` lines 152-158): empty path is a no-op;
otherwise start at the node named by the path head (a missing node is a
`KeyError`). -/
def Network.propagate (net : Network) (sig : Signal_information) :
    Except String Signal_information :=
  match sig.path with
  | [] => .ok sig
  | start :: _ =>
    match dictLookup start net.nodes with
    | some node => Node.propagate net node sig
    | none => .error "KeyError"

/-- One parsed JSON node entry as `Network.__init__` consumes it: a dict that
may or may not carry each field (a missing field read raises `KeyError`). -/
structure NodeDict where
  label : Option String
  position : Option (ℚ × ℚ)
  connected_nodes : Option (List String)
  deriving Repr, DecidableEq

/-- Python `Node.__init__` (`elements.py` lines 37-41) after `nd.setdefault("label",
label)` in `Network.__init__`: the label falls back to the outer dict key;
missing `position` or `connected_nodes` raises `KeyError`; `successive`
starts empty. -/
def buildNode (outerKey : String) (nd : NodeDict) : Except String Node :=
  match nd.position, nd.connected_nodes with
  | some pos, some cns =>
    .ok { label := nd.label.getD outerKey
          position := pos
          connected_nodes := cns
          successive := [] }
  | _, _ => .error "KeyError"

/-- The loop of `Network.__init__` (`elements.py` lines 107-110): one Node
per entry, stored under the outer key. -/
def buildNodes : List (String × NodeDict) → List (String × Node) →
    Except String (List (String × Node))
  | [], acc => .ok acc
  | (label, nd) :: rest, acc =>
    match buildNode label nd with
    | .ok node => buildNodes rest (dictInsert label node acc)
    | .error m => .error m

/-- Python `Network.__init__` (`elements.py` lines 92-110) on an already-parsed
topology description (the JSON file reading itself is peripheral I/O):
build one Node per entry; `lines` starts empty. -/
def Network.build (data : List (String × NodeDict)) : Except String Network :=
  match buildNodes data [] with
  | .ok ns => .ok { nodes := ns, lines := [] }
  | .error m => .error m

/-- Inner loop of the line-creation phase of `Network.connect`
(`elements.py` lines 118-125) for one node `a` at `(ax, ay)`: for each
neighbor label, read its position (`KeyError` on a dangling label), compute
`length = hyp(bx - ax, by - ay)` — `hyp` stands for `math.hypot` — and
create the line keyed `a + b` unless that key already exists. -/
def mkLinesInner (net : Network) (hyp : ℚ → ℚ → ℚ) (a : String) (ax ay : ℚ) :
    List String → List (String × Line) → Except String (List (String × Line))
  | [], ls => .ok ls
  | b :: bs, ls =>
    match dictLookup b net.nodes with
    | none => .error "KeyError"
    | some node_b =>
      mkLinesInner net hyp a ax ay bs
        (if (dictLookup (a ++ b) ls).isSome then ls
         else ls ++ [(a ++ b, { label := a ++ b
                                length := hyp (node_b.position.1 - ax) (node_b.position.2 - ay)
                                successive := [] })])

/-- Outer loop of the line-creation phase of `Network.connect`: iterate over
all node entries. -/
def mkLinesOuter (net : Network) (hyp : ℚ → ℚ → ℚ) :
    List (String × Node) → List (String × Line) → Except String (List (String × Line))
  | [], ls => .ok ls
  | (a, node_a) :: rest, ls =>
    match mkLinesInner net hyp a node_a.position.1 node_a.position.2
        node_a.connected_nodes ls with
    | .ok ls' => mkLinesOuter net hyp rest ls'
    | .error m => .error m

/-- Inner loop of the wiring phase of `Network.connect` (`elements.py` lines
127-133) for one node key `a`: for each neighbor label `b`, fetch the line
at key `a + b`, add that key to the node's `successive`, and add `b` (the
reference to `self.nodes[b]`) to the line's `successive`.  The state is the
evolving `(nodes, lines)` registries, since Python mutates the shared Node
and Line objects in place. -/
def wireInner (a : String) : List String →
    List (String × Node) × List (String × Line) →
    Except String (List (String × Node) × List (String × Line))
  | [], st => .ok st
  | b :: bs, (ns, ls) =>
    match dictLookup (a ++ b) ls with
    | none => .error "KeyError"
    | some line_ab =>
      match dictLookup a ns with
      | none => .error "KeyError"
      | some node_a =>
        match dictLookup b ns with
        | none => .error "KeyError"
        | some _ =>
          wireInner a bs
            (dictInsert a { node_a with successive := keyInsert (a ++ b) node_a.successive } ns,
             dictInsert (a ++ b)
               { line_ab with successive := keyInsert b line_ab.successive } ls)

/-- Outer loop of the wiring phase of `Network.connect`: iterate over all
node entries (each entry supplies its key and its neighbor list). -/
def wireOuter : List (String × Node) →
    List (String × Node) × List (String × Line) →
    Except String (List (String × Node) × List (String × Line))
  | [], st => .ok st
  | (a, node_a) :: rest, st =>
    match wireInner a node_a.connected_nodes st with
    | .ok st' => wireOuter rest st'
    | .error m => .error m

/-- Python `Network.connect` (`elements.py` lines 112-133): create all lines, then
wire every node to its outgoing lines and every line to its destination
node.  `hyp` models `math.hypot`. -/
def Network.connect (hyp : ℚ → ℚ → ℚ) (net : Network) : Except String Network :=
  match mkLinesOuter net hyp net.nodes net.lines with
  | .error m => .error m
  | .ok lines1 =>
    match wireOuter net.nodes (net.nodes, lines1) with
    | .error m => .error m
    | .ok (ns, ls) => .ok { nodes := ns, lines := ls }

/-- The `for nxt in ...` loop inside `dfs` (`elements.py` lines 145-147):
accumulate, in discovery order, the paths found by the recursive call
`prev` on every neighbor not already on the partial path; an exception
aborts the whole search. -/
def dfsGo (prev : String → List String → Except String (List (List String)))
    (path : List String) : List String → List (List String) →
    Except String (List (List String))
  | [], acc => .ok acc
  | nxt :: rest, acc =>
    if nxt ∈ path then dfsGo prev path rest acc
    else
      match prev nxt (path ++ [nxt]) with
      | .ok r => dfsGo prev path rest (acc ++ r)
      | .error m => .error m

/-- The recursive `dfs` helper of `Network.find_paths` (`elements.py` lines
141-147): record the partial path once the end label is reached, otherwise
recurse into every neighbor not already on the partial path.  A label with
no node entry raises `KeyError`.  The fuel argument only bounds the
recursion depth for Lean's sake; `Network.find_paths` supplies
`net.nodes.length + 1`, which is never exhausted (the partial path has no
repeated label, so its length is bounded by the number of nodes). -/
def dfs (net : Network) (e : String) : ℕ → String → List String →
    Except String (List (List String))
  | 0, _, _ => .error "fuel"
  | fuel + 1, curr, path =>
    if curr = e then .ok [path]
    else
      match dictLookup curr net.nodes with
      | none => .error "KeyError"
      | some node => dfsGo (dfs net e fuel) path node.connected_nodes []

/-- Python `Network.find_paths` (`elements.py` lines 135-150): empty result if
either endpoint is absent, otherwise depth-first search from `[start]`. -/
def Network.find_paths (net : Network) (s e : String) :
    Except String (List (List String)) :=
  if (dictLookup s net.nodes).isSome && (dictLookup e net.nodes).isSome then
    dfs net e (net.nodes.length + 1) s [s]
  else .ok []

/-- Floor square root by a bounded linear scan (structurally recursive, so
concrete instances evaluate inside the kernel); agrees with the real square
root on perfect squares. -/
def natFloorSqrt (n : ℕ) : ℕ :=
  (List.range (n + 1)).foldl (fun acc k => if k * k ≤ n then k else acc) 0

/-- Exact-rational stand-in for `math.hypot`, used to instantiate the `hyp`
parameter on concrete inputs: the floor square root of the squared
distance's numerator and denominator, which is the true Euclidean norm
whenever both are perfect squares (as in every concrete topology below). -/
def ratHypot (dx dy : ℚ) : ℚ :=
  ((natFloorSqrt (dx * dx + dy * dy).num.toNat : ℚ)) /
    ((natFloorSqrt (dx * dx + dy * dy).den : ℚ))

/-- The length of the line traversed when hopping from the node stored at
`a` to the neighbor labelled `b`: the registry line keyed
`node.label + b`, exactly the lookup `Node.propagate` performs (`0` as a
don't-care value when the lookups fail, which cannot happen on a wired
hop). -/
def hopLength (net : Network) (a b : String) : ℚ :=
  match dictLookup a net.nodes with
  | some node =>
    match dictLookup (node.label ++ b) net.lines with
    | some line => line.length
    | none => 0
  | none => 0

/-- A hop from the node stored at `a` to neighbor label `b` is fully wired:
every lookup the `Node.propagate` / `Line.propagate` pair performs on that
hop succeeds — the node exists, its `successive` has the line key, the line
exists in the registry, the line's `successive` has `b`, and `b` is a
node. -/
def hopWiredB (net : Network) (a b : String) : Bool :=
  match dictLookup a net.nodes with
  | none => false
  | some node =>
    decide (node.label ++ b ∈ node.successive) &&
      match dictLookup (node.label ++ b) net.lines with
      | none => false
      | some line => decide (b ∈ line.successive) && (dictLookup b net.nodes).isSome

/-- Sum, over the consecutive hops of `p`, of `length / ((2/3) * 3e8)` —
the total latency a full propagation accumulates. -/
def pathLatency (net : Network) (p : List String) : ℚ :=
  ((p.zip p.tail).map fun ab => hopLength net ab.1 ab.2 / ((2 / 3) * (3 * 10 ^ 8))).sum

/-- Sum, over the consecutive hops of `p`, of `1e-9 * P * length` — the
total noise a full propagation accumulates for a signal of constant power
`P`. -/
def pathNoise (net : Network) (P : ℚ) (p : List String) : ℚ :=
  ((p.zip p.tail).map fun ab => (1 / 10 ^ 9) * P * hopLength net ab.1 ab.2).sum

/-- Python `b` is adjacent to `a`: `b` appears in the `connected_nodes` of the node
stored at label `a` (the relation `dfs` explores). -/
def adjB (net : Network) (a b : String) : Bool :=
  match dictLookup a net.nodes with
  | some node => decide (b ∈ node.connected_nodes)
  | none => false

/-- The labels under which nodes are stored. -/
def Network.nodeKeys (net : Network) : List String := net.nodes.map Prod.fst

/-- Every neighbor label mentioned by any node is itself a node: the
topology is closed, as any description accepted by the spec's `build`
contract is. -/
def ClosedB (net : Network) : Bool :=
  net.nodes.all fun p => p.2.connected_nodes.all fun b => (dictLookup b net.nodes).isSome

/-- A simple path of the topology from `s` to `e`: non-empty, starts at
`s`, ends at `e`, repeats no node, every consecutive hop is an adjacency,
and every visited label is a node of the topology. -/
def SimplePath (net : Network) (s e : String) (q : List String) : Prop :=
  q.head? = some s ∧ q.getLast? = some e ∧ q.Nodup ∧
    List.Chain' (fun a b => adjB net a b = true) q ∧ ∀ x ∈ q, x ∈ net.nodeKeys

/-- The spec's round-trip topology: `A(0,0)`, `B(0,3)`, `C(4,0)`, adjacency
`A↔B`, `B↔C`. -/
def triData : List (String × NodeDict) :=
  [("A", { label := none, position := some (0, 0), connected_nodes := some ["B"] }),
   ("B", { label := none, position := some (0, 3), connected_nodes := some ["A", "C"] }),
   ("C", { label := none, position := some (4, 0), connected_nodes := some ["B"] })]

/-- The network built from `triData`. -/
def triNet : Network := exceptD (Network.build triData) { nodes := [], lines := [] }

/-- Python `triNet` after `connect`. -/
def triWired : Network :=
  exceptD (Network.connect ratHypot triNet) { nodes := [], lines := [] }

/-! ## Association-list (Python dict) lemmas -/

theorem dictLookup_isSome_iff {α : Type} {l : List (String × α)} {k : String} :
    (dictLookup k l).isSome = true ↔ k ∈ l.map Prod.fst := by
  induction l with
  | nil => simp [dictLookup]
  | cons p t ih =>
    obtain ⟨k', v⟩ := p
    by_cases h : k' = k
    · subst h; simp [dictLookup]
    · simp only [dictLookup, if_neg h, List.map_cons, List.mem_cons, ih]
      constructor
      · exact Or.inr
      · rintro (rfl | hm)
        · exact absurd rfl h
        · exact hm

theorem dictLookup_mem_keys {α : Type} {l : List (String × α)} {k : String} {v : α}
    (h : dictLookup k l = some v) : k ∈ l.map Prod.fst :=
  dictLookup_isSome_iff.mp (by simp [h])

/-- Re-inserting the value already stored at a key is a no-op. -/
theorem dictInsert_self {α : Type} {l : List (String × α)} {k : String} {v : α}
    (h : dictLookup k l = some v) : dictInsert k v l = l := by
  induction l with
  | nil => simp [dictLookup] at h
  | cons p t ih =>
    obtain ⟨k', v'⟩ := p
    by_cases hk : k' = k
    · simp [dictLookup, hk] at h
      simp [dictInsert, hk, h]
    · simp [dictLookup, hk] at h
      simp [dictInsert, hk, ih h]

/-- Python `dictInsert` leaves other keys' lookups unchanged. -/
theorem dictLookup_dictInsert_ne {α : Type} {l : List (String × α)} {k k' : String} {v : α}
    (h : k ≠ k') : dictLookup k' (dictInsert k v l) = dictLookup k' l := by
  induction l with
  | nil => simp [dictInsert, dictLookup, h]
  | cons p t ih =>
    obtain ⟨k₀, v₀⟩ := p
    by_cases hk : k₀ = k
    · subst hk
      simp [dictInsert, dictLookup, h]
    · simp [dictInsert, dictLookup, hk, ih]

/-- Python `dictInsert` makes the inserted key's lookup return the new value. -/
theorem dictLookup_dictInsert_self {α : Type} {l : List (String × α)} {k : String} {v : α} :
    dictLookup k (dictInsert k v l) = some v := by
  induction l with
  | nil => simp [dictInsert, dictLookup]
  | cons p t ih =>
    obtain ⟨k₀, v₀⟩ := p
    by_cases hk : k₀ = k <;> simp [dictInsert, dictLookup, hk, ih]

/-- Inserting at a key that is already present leaves the key list
unchanged. -/
theorem dictInsert_keys_mem {α : Type} {l : List (String × α)} {k : String} {v : α}
    (h : k ∈ l.map Prod.fst) :
    (dictInsert k v l).map Prod.fst = l.map Prod.fst := by
  induction l with
  | nil => simp at h
  | cons p t ih =>
    obtain ⟨k₀, v₀⟩ := p
    by_cases hk : k₀ = k
    · simp [dictInsert, hk]
    · simp only [List.map_cons, List.mem_cons] at h
      rcases h with h | h
      · exact absurd h.symm hk
      · simp [dictInsert, hk, ih h]

theorem keyInsert_mem {k k' : String} {l : List String} :
    k' ∈ keyInsert k l ↔ k' ∈ l ∨ k' = k := by
  by_cases h : k ∈ l
  · constructor
    · intro hm
      simp only [keyInsert, if_pos h] at hm
      exact Or.inl hm
    · intro hm
      simp only [keyInsert, if_pos h]
      rcases hm with hm | rfl
      · exact hm
      · exact h
  · simp [keyInsert, if_neg h]

theorem keyInsert_of_mem {k : String} {l : List String} (h : k ∈ l) :
    keyInsert k l = l := by simp [keyInsert, h]

/-! ## Step lemmas for the propagation protocol -/

theorem Signal_information.update_path_eq {s : Signal_information} {a : String}
    {t : List String} (h : s.path = a :: t) : s.update_path = { s with path := t } := by
  unfold Signal_information.update_path
  rw [h]

theorem Line.applyTo_eq (line : Line) (sig : Signal_information) :
    line.applyTo sig =
      { sig with latency := sig.latency + line.latency_generation
                 noise_power := sig.noise_power + line.noise_generation sig.signal_power } := rfl

/-- Python `Node.propagate` when no next node remains: consume and stop. -/
theorem Node.propagate_stop (net : Network) (node : Node) (sig : Signal_information)
    (h : sig.path.tail = []) : Node.propagate net node sig = .ok sig.update_path := by
  rw [Node.propagate.eq_def]
  split
  · rfl
  · rename_i next t hcon
    rw [Signal_information.update_path_path, h] at hcon
    simp at hcon

/-- Python `Node.propagate` when a next node remains: look up the line keyed
`label + next` and delegate. -/
theorem Node.propagate_step (net : Network) (node : Node) (sig : Signal_information)
    {b : String} {t : List String} (h : sig.path.tail = b :: t) :
    Node.propagate net node sig =
      if node.label ++ b ∈ node.successive then
        match dictLookup (node.label ++ b) net.lines with
        | some line => Line.propagate net line sig.update_path
        | none => .error "KeyError"
      else .error "KeyError" := by
  rw [Node.propagate.eq_def]
  split
  · rename_i hcon
    rw [Signal_information.update_path_path, h] at hcon
    simp at hcon
  · rename_i next t' hcon
    rw [Signal_information.update_path_path, h] at hcon
    obtain ⟨rfl, rfl⟩ : next = b ∧ t' = t := by
      constructor <;> injection hcon <;> simp_all
    rfl

/-- Python `Line.propagate` on an exhausted path: apply the update and stop. -/
theorem Line.propagate_last (net : Network) (line : Line) (sig : Signal_information)
    (h : sig.path = []) : Line.propagate net line sig = .ok (line.applyTo sig) := by
  rw [Line.propagate.eq_def]
  split
  · rfl
  · rename_i next t hcon
    rw [Line.applyTo_path, h] at hcon
    simp at hcon

/-- Python `Line.propagate` with a pending path: apply the update and forward to the
destination node named by the head. -/
theorem Line.propagate_forward (net : Network) (line : Line) (sig : Signal_information)
    {b : String} {t : List String} (h : sig.path = b :: t) :
    Line.propagate net line sig =
      if b ∈ line.successive then
        match dictLookup b net.nodes with
        | some node => Node.propagate net node (line.applyTo sig)
        | none => .error "KeyError"
      else .error "KeyError" := by
  rw [Line.propagate.eq_def]
  split
  · rename_i hcon
    rw [Line.applyTo_path, h] at hcon
    simp at hcon
  · rename_i next t' hcon
    rw [Line.applyTo_path, h] at hcon
    obtain ⟨rfl, rfl⟩ : next = b ∧ t' = t := by
      constructor <;> injection hcon <;> simp_all
    rfl

/-- Unpack a wired hop into the witnesses of every lookup the propagation
code performs on it. -/
theorem hopWiredB_elim {net : Network} {a b : String} (h : hopWiredB net a b = true) :
    ∃ node line, dictLookup a net.nodes = some node ∧
      (node.label ++ b) ∈ node.successive ∧
      dictLookup (node.label ++ b) net.lines = some line ∧
      b ∈ line.successive ∧ (dictLookup b net.nodes).isSome = true ∧
      hopLength net a b = line.length := by
  unfold hopWiredB at h
  split at h
  · exact absurd h (by simp)
  · rename_i node hnode
    rw [Bool.and_eq_true] at h
    obtain ⟨hsucc, h⟩ := h
    split at h
    · exact absurd h (by simp)
    · rename_i line hline
      rw [Bool.and_eq_true] at h
      obtain ⟨hdest, hb⟩ := h
      exact ⟨node, line, hnode, of_decide_eq_true hsucc, hline,
        of_decide_eq_true hdest, hb, by simp [hopLength, hnode, hline]⟩

/-- Converse of `hopWiredB_elim`. -/
theorem hopWiredB_intro {net : Network} {a b : String} {node : Node} {line : Line}
    (hnode : dictLookup a net.nodes = some node)
    (hsucc : (node.label ++ b) ∈ node.successive)
    (hline : dictLookup (node.label ++ b) net.lines = some line)
    (hdest : b ∈ line.successive) (hb : (dictLookup b net.nodes).isSome = true) :
    hopWiredB net a b = true := by
  simp [hopWiredB, hnode, hline, hsucc, hdest, hb]

/-- Full propagation from a node along a completely wired path: the path
empties, power is untouched, and latency and noise accumulate the per-hop
sums (noise per hop uses the signal's power on entry, which never
changes). -/
theorem Node.propagate_wired_chain (net : Network) :
    ∀ (rest : List String) (a : String) (node : Node) (sig : Signal_information),
      sig.path = a :: rest →
      dictLookup a net.nodes = some node →
      List.Chain' (fun x y => hopWiredB net x y = true) (a :: rest) →
      Node.propagate net node sig = .ok
        { signal_power := sig.signal_power
          noise_power := sig.noise_power + pathNoise net sig.signal_power (a :: rest)
          latency := sig.latency + pathLatency net (a :: rest)
          path := [] } := by
  intro rest
  induction rest with
  | nil =>
    intro a node sig hpath _ _
    rw [Node.propagate_stop net node sig (by rw [hpath]; rfl),
      Signal_information.update_path_eq hpath]
    simp [pathNoise, pathLatency]
  | cons b rest' ih =>
    intro a node sig hpath hnode hchain
    rw [List.chain'_cons] at hchain
    obtain ⟨hab, hchain'⟩ := hchain
    obtain ⟨node₀, line, hnode₀, hsucc, hline, hdest, hbsome, hlen⟩ := hopWiredB_elim hab
    rw [hnode] at hnode₀
    injection hnode₀ with hEq
    subst hEq
    rw [Node.propagate_step net node sig (b := b) (t := rest') (by rw [hpath]; rfl),
      if_pos hsucc, hline]
    show Line.propagate net line sig.update_path = _
    rw [Signal_information.update_path_eq hpath]
    rw [Line.propagate_forward net line _ (b := b) (t := rest') rfl, if_pos hdest]
    obtain ⟨nodeB, hnodeB⟩ := Option.isSome_iff_exists.mp hbsome
    rw [hnodeB]
    show Node.propagate net nodeB _ = _
    rw [ih b nodeB _ rfl hnodeB hchain']
    simp only [Line.applyTo_eq, Except.ok.injEq, Signal_information.mk.injEq]
    refine ⟨trivial, ?_, ?_, trivial⟩
    · show sig.noise_power + line.noise_generation sig.signal_power +
        pathNoise net sig.signal_power (b :: rest') =
        sig.noise_power + pathNoise net sig.signal_power (a :: b :: rest')
      simp only [pathNoise, List.zip_cons_cons, List.tail_cons, List.map_cons, List.sum_cons]
      rw [hlen]
      simp only [Line.noise_generation]
      ring
    · show sig.latency + line.latency_generation +
        pathLatency net (b :: rest') =
        sig.latency + pathLatency net (a :: b :: rest')
      simp only [pathLatency, List.zip_cons_cons, List.tail_cons, List.map_cons, List.sum_cons]
      rw [hlen]
      simp only [Line.latency_generation]
      ring

/-- Propagation from a node whose remaining path is not completely wired
always escapes with an exception. -/
theorem Node.propagate_broken_chain (net : Network) :
    ∀ (rest : List String) (a : String) (node : Node) (sig : Signal_information),
      sig.path = a :: rest →
      dictLookup a net.nodes = some node →
      ¬ List.Chain' (fun x y => hopWiredB net x y = true) (a :: rest) →
      exceptErr (Node.propagate net node sig) = true := by
  intro rest
  induction rest with
  | nil =>
    intro a node sig _ _ hchain
    exact absurd (List.chain'_singleton a) hchain
  | cons b rest' ih =>
    intro a node sig hpath hnode hchain
    rw [List.chain'_cons] at hchain
    rw [Node.propagate_step net node sig (b := b) (t := rest') (by rw [hpath]; rfl)]
    by_cases hsucc : node.label ++ b ∈ node.successive
    · rw [if_pos hsucc]
      cases hline : dictLookup (node.label ++ b) net.lines with
      | none => rfl
      | some line =>
        show exceptErr (Line.propagate net line sig.update_path) = true
        rw [Signal_information.update_path_eq hpath]
        rw [Line.propagate_forward net line _ (b := b) (t := rest') rfl]
        by_cases hdest : b ∈ line.successive
        · rw [if_pos hdest]
          cases hb : dictLookup b net.nodes with
          | none => rfl
          | some nodeB =>
            show exceptErr (Node.propagate net nodeB _) = true
            have hab : hopWiredB net a b = true :=
              hopWiredB_intro hnode hsucc hline hdest (by simp [hb])
            exact ih b nodeB _ rfl hb fun hc => hchain ⟨hab, hc⟩
        · rw [if_neg hdest]; rfl
    · rw [if_neg hsucc]; rfl

/-- Reduction of `Network.propagate` on a non-empty path. -/
theorem Network.propagate_eq_cons (net : Network) (sig : Signal_information)
    {a : String} {rest : List String} (h : sig.path = a :: rest) :
    Network.propagate net sig =
      match dictLookup a net.nodes with
      | some node => Node.propagate net node sig
      | none => .error "KeyError" := by
  unfold Network.propagate
  rw [h]

/-- Python `Network.propagate` along a completely wired non-empty path whose start
label is a node (the empty path is the degenerate no-op). -/
theorem Network.propagate_wired (net : Network) (sig : Signal_information)
    (hchain : List.Chain' (fun x y => hopWiredB net x y = true) sig.path)
    (hstart : ∀ a, sig.path.head? = some a → (dictLookup a net.nodes).isSome = true) :
    Network.propagate net sig = .ok
      { signal_power := sig.signal_power
        noise_power := sig.noise_power + pathNoise net sig.signal_power sig.path
        latency := sig.latency + pathLatency net sig.path
        path := [] } := by
  cases hpath : sig.path with
  | nil =>
    obtain ⟨pw, np, lt, pa⟩ := sig
    simp only at hpath
    subst hpath
    simp [Network.propagate, pathNoise, pathLatency]
  | cons a rest =>
    obtain ⟨node, hnode⟩ :=
      Option.isSome_iff_exists.mp (hstart a (by rw [hpath]; rfl))
    rw [Network.propagate_eq_cons net sig hpath, hnode]
    show Node.propagate net node sig = _
    rw [Node.propagate_wired_chain net rest a node sig hpath hnode (hpath ▸ hchain)]

/-- Python `Network.propagate` on a path that is not completely wired always escapes
with an exception (the broken lookup is never silently swallowed). -/
theorem Network.propagate_not_wired (net : Network) (sig : Signal_information)
    (h : ¬ List.Chain' (fun x y => hopWiredB net x y = true) sig.path) :
    exceptErr (Network.propagate net sig) = true := by
  cases hpath : sig.path with
  | nil =>
    rw [hpath] at h
    exact absurd List.chain'_nil h
  | cons a rest =>
    rw [Network.propagate_eq_cons net sig hpath]
    cases hnode : dictLookup a net.nodes with
    | none => rfl
    | some node =>
      show exceptErr (Node.propagate net node sig) = true
      exact Node.propagate_broken_chain net rest a node sig hpath hnode (hpath ▸ h)

theorem pyListCopy_eq (l : List String) : pyListCopy l = l := by
  induction l with
  | nil => rfl
  | cons a t ih =>
    show a :: pyListCopy t = a :: t
    rw [ih]

/-! ## Claims C1, C2, C4, C7, C10 -/

/-- Executable check that every consecutive hop of a path is wired. -/
def chainWiredB (net : Network) : List String → Bool
  | [] => true
  | [_] => true
  | a :: b :: rest => hopWiredB net a b && chainWiredB net (b :: rest)

theorem chainWiredB_iff {net : Network} :
    ∀ {p : List String}, chainWiredB net p = true ↔
      List.Chain' (fun a b => hopWiredB net a b = true) p
  | [] => by simp [chainWiredB]
  | [a] => by simp [chainWiredB]
  | a :: b :: rest => by
    rw [List.chain'_cons, ← chainWiredB_iff (p := b :: rest)]
    simp [chainWiredB]

/-- C1: for every initial power `P`, every wired topology, and every path of
`N ≥ 2` nodes whose consecutive hops are all wired, after
`Network.propagate` returns the signal's path is empty, its latency is the
sum over the `N-1` traversed links of `length / ((2/3)*3e8)`, its
noise_power is the sum over those links of `1e-9 * P * length`, and its
signal_power is still `P`. -/
theorem C1_full_propagation (net : Network) (P : ℚ) (p : List String)
    (hlen : 2 ≤ p.length)
    (hwired : chainWiredB net p = true) :
    Network.propagate net (Signal_information.init P p) =
      .ok { signal_power := P
            noise_power := pathNoise net P p
            latency := pathLatency net p
            path := [] } := by
  rw [chainWiredB_iff] at hwired
  have hinit : (Signal_information.init P p).path = p := by
    simp [Signal_information.init, pyListCopy_eq]
  have hstart : ∀ a, (Signal_information.init P p).path.head? = some a →
      (dictLookup a net.nodes).isSome = true := by
    intro x hx
    rw [hinit] at hx
    cases p with
    | nil => simp at hx
    | cons a rest =>
      cases rest with
      | nil => simp at hlen
      | cons b rest' =>
        obtain ⟨node, _, hnode, _⟩ := hopWiredB_elim (List.chain'_cons.mp hwired).1
        simp only [List.head?_cons, Option.some.injEq] at hx
        subst hx
        simp [hnode]
  rw [Network.propagate_wired net _ (by rw [hinit]; exact hwired) hstart]
  simp [Signal_information.init, hinit, pyListCopy_eq]

/-- C1 witness: the spec's triangle topology `A(0,0)`, `B(0,3)`, `C(4,0)`
with adjacency `A↔B`, `B↔C`, wired by `connect`, propagating power `1`
along `[A, B, C]`. -/
theorem C1_witness :
    2 ≤ (["A", "B", "C"] : List String).length ∧
    chainWiredB triWired ["A", "B", "C"] = true ∧
    Network.propagate triWired (Signal_information.init 1 ["A", "B", "C"]) =
      .ok { signal_power := 1
            noise_power := pathNoise triWired 1 ["A", "B", "C"]
            latency := pathLatency triWired ["A", "B", "C"]
            path := [] } :=
  ⟨by decide, by decide,
    C1_full_propagation triWired 1 ["A", "B", "C"] (by decide) (by decide)⟩

/-- C2: for every Line with non-negative length and every non-negative
power `P`, `latency_generation()` returns exactly
`length / ((2/3) * 3e8)` and `noise_generation(P)` returns exactly
`1e-9 * P * length`. -/
theorem C2_generation (line : Line) (P : ℚ)
    (hl : 0 ≤ line.length) (hP : 0 ≤ P) :
    line.latency_generation = line.length / ((2 / 3) * (3 * 10 ^ 8)) ∧
    line.noise_generation P = (1 / 10 ^ 9) * P * line.length :=
  ⟨rfl, rfl⟩

/-- C2 witness: a concrete line of length `5` and power `2`. -/
theorem C2_witness :
    (0 : ℚ) ≤ (Line.mk "AB" 5 []).length ∧ (0 : ℚ) ≤ 2 ∧
    ((Line.mk "AB" 5 []).latency_generation =
        (Line.mk "AB" 5 []).length / ((2 / 3) * (3 * 10 ^ 8)) ∧
      (Line.mk "AB" 5 []).noise_generation 2 =
        (1 / 10 ^ 9) * 2 * (Line.mk "AB" 5 []).length) :=
  ⟨by norm_num, by norm_num, C2_generation (Line.mk "AB" 5 []) 2 (by norm_num) (by norm_num)⟩

/-- C4: a signal whose path names, at some node, a next hop for which the
current node has no wired outgoing edge makes propagation fail loudly — the
exception reaches the caller, the path is never silently truncated. -/
theorem C4_unwired_hop_raises (net : Network) (sig : Signal_information)
    (pre post : List String) (a b : String) (node : Node)
    (hpath : sig.path = pre ++ a :: b :: post)
    (hnode : dictLookup a net.nodes = some node)
    (hmiss : node.label ++ b ∉ node.successive) :
    exceptErr (Network.propagate net sig) = true := by
  apply Network.propagate_not_wired
  rw [hpath]
  intro hchain
  obtain ⟨-, h2, -⟩ := List.chain'_append.mp hchain
  obtain ⟨node₀, line, hnode₀, hsucc, -, -, -, -⟩ :=
    hopWiredB_elim (List.chain'_cons.mp h2).1
  rw [hnode] at hnode₀
  injection hnode₀ with hEq
  subst hEq
  exact hmiss hsucc

/-- C4 witness: the triangle topology before `connect` has empty
`successive` maps, so the hop `A → B` of the path `[A, B]` has no wired
outgoing edge and propagation errors out. -/
theorem C4_witness :
    (Signal_information.init 1 ["A", "B"]).path = [] ++ "A" :: "B" :: [] ∧
    dictLookup "A" triNet.nodes =
      some { label := "A", position := (0, 0), connected_nodes := ["B"], successive := [] } ∧
    ("A" : String) ++ "B" ∉
      ({ label := "A", position := (0, 0), connected_nodes := ["B"],
         successive := [] } : Node).successive ∧
    exceptErr (Network.propagate triNet (Signal_information.init 1 ["A", "B"])) = true :=
  ⟨by decide, by decide, by decide,
    C4_unwired_hop_raises triNet (Signal_information.init 1 ["A", "B"]) [] [] "A" "B"
      { label := "A", position := (0, 0), connected_nodes := ["B"], successive := [] }
      (by decide) (by decide) (by decide)⟩

/-- C7: a signal whose path holds exactly one node present in the topology
performs zero hops: signal_power, noise_power and latency are unchanged and
the only change is that the path becomes empty. -/
theorem C7_single_node_noop (net : Network) (sig : Signal_information) (a : String)
    (hpath : sig.path = [a])
    (hnode : (dictLookup a net.nodes).isSome = true) :
    Network.propagate net sig =
      .ok { signal_power := sig.signal_power
            noise_power := sig.noise_power
            latency := sig.latency
            path := [] } := by
  have hstart : ∀ x, sig.path.head? = some x → (dictLookup x net.nodes).isSome = true := by
    intro x hx
    rw [hpath] at hx
    injection hx with hx
    subst hx
    exact hnode
  rw [Network.propagate_wired net sig (by rw [hpath]; exact List.chain'_singleton a) hstart]
  simp [hpath, pathNoise, pathLatency]

/-- C7 witness: a single-node path `[B]` on the wired triangle. -/
theorem C7_witness :
    (Signal_information.init 2 ["B"]).path = ["B"] ∧
    (dictLookup "B" triWired.nodes).isSome = true ∧
    Network.propagate triWired (Signal_information.init 2 ["B"]) =
      .ok { signal_power := (Signal_information.init 2 ["B"]).signal_power
            noise_power := (Signal_information.init 2 ["B"]).noise_power
            latency := (Signal_information.init 2 ["B"]).latency
            path := [] } :=
  ⟨by decide, by decide,
    C7_single_node_noop triWired (Signal_information.init 2 ["B"]) "B" (by decide) (by decide)⟩

/-- C10: the constructor yields `signal_power = P`, `noise_power = 0`,
`latency = 0` and `path = p`; the stored path is the copy
`pyListCopy p` (`list(path)` in the source), and under the embedding's
value semantics no later `update_path` can affect the caller's list. -/
theorem C10_constructor (P : ℚ) (p : List String) :
    (Signal_information.init P p).signal_power = P ∧
    (Signal_information.init P p).noise_power = 0 ∧
    (Signal_information.init P p).latency = 0 ∧
    (Signal_information.init P p).path = p :=
  ⟨rfl, rfl, rfl, pyListCopy_eq p⟩

/-- C8: for every topology containing node `A`, `find_paths(A, A)` returns
exactly the single trivial path `[A]`, regardless of `A`'s adjacency
list. -/
theorem C8_trivial_path (net : Network) (A : String)
    (h : (dictLookup A net.nodes).isSome = true) :
    Network.find_paths net A A = .ok [[A]] := by
  unfold Network.find_paths
  simp only [h, Bool.and_self, if_true]
  rw [dfs.eq_def]
  simp

/-- C8 witness: node `B` of the triangle, whose adjacency list is
`[A, C]`. -/
theorem C8_witness :
    (dictLookup "B" triNet.nodes).isSome = true ∧
    Network.find_paths triNet "B" "B" = .ok [["B"]] :=
  ⟨by decide, C8_trivial_path triNet "B" (by decide)⟩

/-! ## Characterisation of `find_paths` (claim C3)

`GoodExt net e pre curr ext` mirrors the recursion of `dfs`: starting at
`curr` with partial path `pre`, the extension `ext` is one of the
continuations `dfs` records — it stops exactly at `e` and only steps to
adjacent labels not already on the partial path. -/

def GoodExt (net : Network) (e : String) : List String → String → List String → Prop
  | _, curr, [] => curr = e
  | pre, curr, nxt :: ext =>
    curr ≠ e ∧ adjB net curr nxt = true ∧ nxt ∉ pre ∧
      GoodExt net e (pre ++ [nxt]) nxt ext

theorem GoodExt_nil {net : Network} {e : String} {pre : List String} {curr : String} :
    GoodExt net e pre curr [] ↔ curr = e := Iff.rfl

theorem GoodExt_cons {net : Network} {e : String} {pre : List String} {curr nxt : String}
    {ext : List String} :
    GoodExt net e pre curr (nxt :: ext) ↔
      curr ≠ e ∧ adjB net curr nxt = true ∧ nxt ∉ pre ∧
        GoodExt net e (pre ++ [nxt]) nxt ext := Iff.rfl

/-- Number of node labels not yet on the partial path — the quantity that
shrinks at every `dfs` recursion, bounding its depth. -/
def restLabels (net : Network) (path : List String) : ℕ :=
  (net.nodeKeys.filter fun x => decide (x ∉ path)).length

theorem restLabels_lt (net : Network) {path : List String} {nxt : String}
    (hmem : nxt ∈ net.nodeKeys) (hnot : nxt ∉ path) :
    restLabels net (path ++ [nxt]) < restLabels net path := by
  have hsub : (net.nodeKeys.filter fun x => decide (x ∉ path ++ [nxt])).Sublist
      (net.nodeKeys.filter fun x => decide (x ∉ path)) := by
    apply List.monotone_filter_right
    intro a ha
    simp only [decide_eq_true_eq, List.mem_append, List.mem_singleton] at ha ⊢
    exact fun h => ha (Or.inl h)
  apply Nat.lt_of_le_of_ne hsub.length_le
  intro heq
  have hlists := hsub.eq_of_length heq
  have h1 : nxt ∈ net.nodeKeys.filter fun x => decide (x ∉ path) := by
    simp [List.mem_filter, hmem, hnot]
  rw [← hlists] at h1
  simp [List.mem_filter] at h1

theorem dictLookup_mem {α : Type} {l : List (String × α)} {k : String} {v : α}
    (h : dictLookup k l = some v) : (k, v) ∈ l := by
  induction l with
  | nil => simp [dictLookup] at h
  | cons p t ih =>
    obtain ⟨k', v'⟩ := p
    by_cases hk : k' = k
    · subst hk
      simp only [dictLookup, if_true, Option.some.injEq] at h
      subst h
      simp
    · simp only [dictLookup, if_neg hk] at h
      exact List.mem_cons_of_mem _ (ih h)

theorem closedB_elim {net : Network} (h : ClosedB net = true) {a : String} {node : Node}
    {b : String} (ha : dictLookup a net.nodes = some node) (hb : b ∈ node.connected_nodes) :
    (dictLookup b net.nodes).isSome = true := by
  unfold ClosedB at h
  rw [List.all_eq_true] at h
  have h2 := h (a, node) (dictLookup_mem ha)
  rw [List.all_eq_true] at h2
  exact h2 b hb

theorem adjB_intro {net : Network} {a b : String} {node : Node}
    (hnode : dictLookup a net.nodes = some node) (hb : b ∈ node.connected_nodes) :
    adjB net a b = true := by
  simp [adjB, hnode, hb]

theorem adjB_elim {net : Network} {a b : String} (h : adjB net a b = true) :
    ∃ node, dictLookup a net.nodes = some node ∧ b ∈ node.connected_nodes := by
  unfold adjB at h
  split at h
  · rename_i node hnode
    exact ⟨node, hnode, of_decide_eq_true h⟩
  · exact absurd h (by simp)

theorem mem_of_getLast?_eq {l : List String} {a : String} (h : l.getLast? = some a) :
    a ∈ l := by
  obtain ⟨hne, rfl⟩ := List.mem_getLast?_eq_getLast (Option.mem_def.mpr h)
  exact List.getLast_mem hne

/-- On a closed topology, every label reachable along an adjacency chain
from a node label is itself a node label. -/
theorem chain_mem_keys (net : Network) (hclosed : ClosedB net = true) :
    ∀ (ext : List String) (s : String), (dictLookup s net.nodes).isSome = true →
      List.Chain' (fun a b => adjB net a b = true) (s :: ext) →
      ∀ x ∈ s :: ext, x ∈ net.nodeKeys := by
  intro ext
  induction ext with
  | nil =>
    intro s hs _ x hx
    rw [List.mem_singleton] at hx
    subst hx
    exact dictLookup_isSome_iff.mp hs
  | cons b ext' ih =>
    intro s hs hchain x hx
    rw [List.chain'_cons] at hchain
    obtain ⟨node, hnode, hmem⟩ := adjB_elim hchain.1
    have hb : (dictLookup b net.nodes).isSome = true := closedB_elim hclosed hnode hmem
    rcases List.mem_cons.mp hx with rfl | hx
    · exact dictLookup_isSome_iff.mp hs
    · exact ih b hb hchain.2 x hx

/-- Specification of the adjacency loop of `dfs`, given the specification of
the recursive calls at the next fuel level. -/
theorem dfsGo_mem (net : Network) (e : String) (fuel : ℕ)
    (IH : ∀ curr path, path ≠ [] → path.Nodup →
      (dictLookup curr net.nodes).isSome = true →
      restLabels net path < fuel →
      ∃ r, dfs net e fuel curr path = .ok r ∧
        ∀ q, q ∈ r ↔ ∃ ext, q = path ++ ext ∧ GoodExt net e path curr ext) :
    ∀ (l : List String) (path : List String) (acc : List (List String)),
      path ≠ [] → path.Nodup →
      (∀ x ∈ l, (dictLookup x net.nodes).isSome = true) →
      restLabels net path < fuel + 1 →
      ∃ r, dfsGo (dfs net e fuel) path l acc = .ok r ∧
        ∀ q, q ∈ r ↔ q ∈ acc ∨ ∃ nxt ext, nxt ∈ l ∧ nxt ∉ path ∧
          q = path ++ nxt :: ext ∧ GoodExt net e (path ++ [nxt]) nxt ext := by
  intro l
  induction l with
  | nil =>
    intro path acc _ _ _ _
    refine ⟨acc, rfl, fun q => ?_⟩
    simp
  | cons nxt rest ihl =>
    intro path acc hne hnd hsome hfuel
    rw [dfsGo.eq_def]
    by_cases hmem : nxt ∈ path
    · simp only [if_pos hmem]
      obtain ⟨r, hr, hq⟩ :=
        ihl path acc hne hnd (fun x hx => hsome x (List.mem_cons_of_mem _ hx)) hfuel
      refine ⟨r, hr, fun q => ?_⟩
      rw [hq q]
      constructor
      · rintro (h | ⟨n, ext, hn, hnp, rfl, hg⟩)
        · exact Or.inl h
        · exact Or.inr ⟨n, ext, List.mem_cons_of_mem _ hn, hnp, rfl, hg⟩
      · rintro (h | ⟨n, ext, hn, hnp, rfl, hg⟩)
        · exact Or.inl h
        · rcases List.mem_cons.mp hn with rfl | hn
          · exact absurd hmem hnp
          · exact Or.inr ⟨n, ext, hn, hnp, rfl, hg⟩
    · simp only [if_neg hmem]
      have hnxt : (dictLookup nxt net.nodes).isSome = true := hsome nxt (by simp)
      have hkeys : nxt ∈ net.nodeKeys := dictLookup_isSome_iff.mp hnxt
      have hlt : restLabels net (path ++ [nxt]) < fuel :=
        lt_of_lt_of_le (restLabels_lt net hkeys hmem) (Nat.lt_succ_iff.mp hfuel)
      have hnd' : (path ++ [nxt]).Nodup := by
        rw [List.nodup_append]
        exact ⟨hnd, List.nodup_singleton _,
          fun a ha hb => hmem ((List.mem_singleton.mp hb) ▸ ha)⟩
      obtain ⟨rn, hrn, hqn⟩ := IH nxt (path ++ [nxt]) (by simp) hnd' hnxt hlt
      obtain ⟨r, hr, hq⟩ := ihl path (acc ++ rn) hne hnd
        (fun x hx => hsome x (List.mem_cons_of_mem _ hx)) hfuel
      refine ⟨r, ?_, fun q => ?_⟩
      · rw [hrn]
        exact hr
      · rw [hq q]
        constructor
        · rintro (hacc | ⟨n, ext, hn, hnp, rfl, hg⟩)
          · rcases List.mem_append.mp hacc with h | h
            · exact Or.inl h
            · obtain ⟨ext, rfl, hg⟩ := (hqn q).mp h
              exact Or.inr ⟨nxt, ext, by simp, hmem, by simp, hg⟩
          · exact Or.inr ⟨n, ext, List.mem_cons_of_mem _ hn, hnp, rfl, hg⟩
        · rintro (hacc | ⟨n, ext, hn, hnp, hqe, hg⟩)
          · exact Or.inl (List.mem_append_left _ hacc)
          · rcases List.mem_cons.mp hn with rfl | hn
            · subst hqe
              exact Or.inl (List.mem_append_right _ ((hqn _).mpr ⟨ext, by simp, hg⟩))
            · exact Or.inr ⟨n, ext, hn, hnp, hqe, hg⟩

/-- Specification of `dfs`: with enough fuel, on a closed topology, the
search succeeds and returns exactly the extensions of the partial path that
`GoodExt` describes. -/
theorem dfs_mem (net : Network) (e : String) (hclosed : ClosedB net = true) :
    ∀ (fuel : ℕ) (curr : String) (path : List String), path ≠ [] → path.Nodup →
      (dictLookup curr net.nodes).isSome = true →
      restLabels net path < fuel →
      ∃ r, dfs net e fuel curr path = .ok r ∧
        ∀ q, q ∈ r ↔ ∃ ext, q = path ++ ext ∧ GoodExt net e path curr ext := by
  intro fuel
  induction fuel with
  | zero => intro curr path _ _ _ h; omega
  | succ fuel ih =>
    intro curr path hne hnd hcurr hlt
    by_cases hce : curr = e
    · subst hce
      refine ⟨[path], ?_, fun q => ?_⟩
      · rw [dfs.eq_def]
        simp
      · simp only [List.mem_singleton]
        constructor
        · rintro rfl
          exact ⟨[], by simp, rfl⟩
        · rintro ⟨ext, rfl, hg⟩
          cases ext with
          | nil => simp
          | cons n ext' => exact absurd rfl (GoodExt_cons.mp hg).1
    · obtain ⟨node, hnode⟩ := Option.isSome_iff_exists.mp hcurr
      have hsome : ∀ x ∈ node.connected_nodes, (dictLookup x net.nodes).isSome = true :=
        fun x hx => closedB_elim hclosed hnode hx
      obtain ⟨r, hr, hq⟩ :=
        dfsGo_mem net e fuel ih node.connected_nodes path [] hne hnd hsome hlt
      refine ⟨r, ?_, fun q => ?_⟩
      · rw [dfs.eq_def]
        simp only [if_neg hce, hnode]
        exact hr
      · rw [hq q]
        simp only [List.not_mem_nil, false_or]
        constructor
        · rintro ⟨nxt, ext, hn, hnp, rfl, hg⟩
          exact ⟨nxt :: ext, rfl, GoodExt_cons.mpr ⟨hce, adjB_intro hnode hn, hnp, hg⟩⟩
        · rintro ⟨ext, rfl, hg⟩
          cases ext with
          | nil => exact absurd (GoodExt_nil.mp hg) hce
          | cons nxt ext' =>
            obtain ⟨-, hadj, hnp, hg'⟩ := GoodExt_cons.mp hg
            obtain ⟨node₀, hnode₀, hmem⟩ := adjB_elim hadj
            rw [hnode] at hnode₀
            injection hnode₀ with hh
            subst hh
            exact ⟨nxt, ext', hmem, hnp, rfl, hg'⟩

/-- A `dfs` extension is exactly an adjacency chain that ends at `e`,
repeats nothing, and avoids the partial path (provided the current label is
already on the partial path, as it always is during the search). -/
theorem goodExt_iff (net : Network) (e : String) :
    ∀ (ext pre : List String) (curr : String), curr ∈ pre →
      (GoodExt net e pre curr ext ↔
        List.Chain' (fun a b => adjB net a b = true) (curr :: ext) ∧
        (curr :: ext).getLast? = some e ∧
        ext.Nodup ∧ ∀ x ∈ ext, x ∉ pre) := by
  intro ext
  induction ext with
  | nil =>
    intro pre curr _
    rw [GoodExt_nil]
    simp
  | cons nxt ext' ih =>
    intro pre curr hcurr
    rw [GoodExt_cons, ih (pre ++ [nxt]) nxt (by simp), List.chain'_cons,
      List.getLast?_cons_cons, List.nodup_cons]
    constructor
    · rintro ⟨hne, hadj, hnp, hchain, hlast, hnd, hdisj⟩
      refine ⟨⟨hadj, hchain⟩, hlast, ⟨?_, hnd⟩, ?_⟩
      · intro hmem
        have := hdisj nxt hmem
        simp at this
      · intro x hx
        rcases List.mem_cons.mp hx with rfl | hx
        · exact hnp
        · intro hxp
          exact hdisj x hx (List.mem_append_left _ hxp)
    · rintro ⟨⟨hadj, hchain⟩, hlast, ⟨hnm, hnd⟩, hdisj⟩
      refine ⟨?_, hadj, hdisj nxt (by simp), hchain, hlast, hnd, ?_⟩
      · intro hce
        subst hce
        have hm : curr ∈ nxt :: ext' := mem_of_getLast?_eq hlast
        exact hdisj curr hm hcurr
      · intro x hx
        rw [List.mem_append, List.mem_singleton]
        rintro (hp | rfl)
        · exact hdisj x (List.mem_cons_of_mem _ hx) hp
        · exact hnm hx

/-- A topology whose adjacency lists mention only existing nodes (the kind
the spec's `build` contract promises): `find_paths` succeeds and returns
exactly the simple paths from `s` to `e` — each begins with `s`, ends with
`e`, repeats no node, and every simple path appears; the result is empty
when an endpoint is absent or no such path exists.

This is claim C3 amended: on a topology with a dangling neighbor label the
search can instead raise `KeyError` (see the counterexample). -/
theorem C3_find_paths_amended (net : Network) (s e : String)
    (hclosed : ClosedB net = true) :
    ∃ ps, Network.find_paths net s e = .ok ps ∧
      ∀ q, q ∈ ps ↔ SimplePath net s e q := by
  unfold Network.find_paths
  by_cases hs : (dictLookup s net.nodes).isSome = true
  · by_cases he : (dictLookup e net.nodes).isSome = true
    · simp only [hs, he, Bool.and_self, if_true]
      have hfuel : restLabels net [s] < net.nodes.length + 1 :=
        lt_of_le_of_lt (List.length_filter_le _ _)
          (by simp [Network.nodeKeys, Nat.lt_succ_iff])
      obtain ⟨r, hr, hq⟩ :=
        dfs_mem net e hclosed (net.nodes.length + 1) s [s] (by simp) (by simp) hs hfuel
      refine ⟨r, hr, fun q => ?_⟩
      rw [hq q]
      constructor
      · rintro ⟨ext, rfl, hg⟩
        rw [goodExt_iff net e ext [s] s (by simp)] at hg
        obtain ⟨hchain, hlast, hnd, hdisj⟩ := hg
        refine ⟨by simp, by simpa using hlast, ?_, by simpa using hchain, ?_⟩
        · rw [List.singleton_append, List.nodup_cons]
          exact ⟨fun hmem => hdisj s hmem (by simp), hnd⟩
        · have := chain_mem_keys net hclosed ext s hs (by simpa using hchain)
          simpa using this
      · rintro ⟨hhead, hlast, hnd, hchain, hkeys⟩
        cases q with
        | nil => simp at hhead
        | cons q0 qt =>
          simp only [List.head?_cons, Option.some.injEq] at hhead
          subst hhead
          refine ⟨qt, by simp, ?_⟩
          rw [goodExt_iff net e qt [q0] q0 (by simp)]
          rw [List.nodup_cons] at hnd
          exact ⟨hchain, hlast, hnd.2,
            fun x hx hxs => hnd.1 ((List.mem_singleton.mp hxs) ▸ hx)⟩
    · rw [Bool.not_eq_true] at he
      simp only [hs, he, Bool.and_false, Bool.false_eq_true, if_false]
      refine ⟨[], rfl, fun q => ?_⟩
      simp only [List.not_mem_nil, false_iff]
      rintro ⟨hhead, hlast, hnd, hchain, hkeys⟩
      have hm : e ∈ q := mem_of_getLast?_eq hlast
      have := dictLookup_isSome_iff.mpr (hkeys e hm)
      rw [he] at this
      exact Bool.false_ne_true this
  · rw [Bool.not_eq_true] at hs
    simp only [hs, Bool.false_and, Bool.false_eq_true, if_false]
    refine ⟨[], rfl, fun q => ?_⟩
    simp only [List.not_mem_nil, false_iff]
    rintro ⟨hhead, hlast, hnd, hchain, hkeys⟩
    cases q with
    | nil => simp at hhead
    | cons q0 qt =>
      simp only [List.head?_cons, Option.some.injEq] at hhead
      subst hhead
      have := dictLookup_isSome_iff.mpr (hkeys q0 (by simp))
      rw [hs] at this
      exact Bool.false_ne_true this

/-- C3 witness: the triangle topology is closed, and the characterisation
applies to the endpoints `A`, `C`. -/
theorem C3_witness :
    ClosedB triNet = true ∧
    ∃ ps, Network.find_paths triNet "A" "C" = .ok ps ∧
      ∀ q, q ∈ ps ↔ SimplePath triNet "A" "C" q :=
  ⟨by decide, C3_find_paths_amended triNet "A" "C" (by decide)⟩

/-- A topology with a dangling neighbor label: `A` lists the non-existent
`Z` as a neighbor, and `B` is an ordinary isolated node. -/
def danglingNet : Network :=
  exceptD (Network.build
    [("A", { label := none, position := some (0, 0), connected_nodes := some ["Z"] }),
     ("B", { label := none, position := some (1, 0), connected_nodes := some [] })])
    { nodes := [], lines := [] }

/-- C3 counterexample: both endpoints `A` and `B` are present and no simple
path from `A` to `B` exists, so the claim demands the empty result — but
`find_paths` raises `KeyError` instead, because the DFS steps into the
dangling neighbor label `Z` and looks it up in `nodes`. -/
theorem C3_counterexample :
    (dictLookup "A" danglingNet.nodes).isSome = true ∧
    (dictLookup "B" danglingNet.nodes).isSome = true ∧
    Network.find_paths danglingNet "A" "B" = .error "KeyError" := by
  refine ⟨by decide, by decide, by rfl⟩

/-! ## Claim C5: `Network.__init__` validation -/

theorem dictInsert_length_of_not_mem {α : Type} {l : List (String × α)} {k : String}
    {v : α} (h : k ∉ l.map Prod.fst) :
    (dictInsert k v l).length = l.length + 1 := by
  induction l with
  | nil => rfl
  | cons p t ih =>
    obtain ⟨k₀, v₀⟩ := p
    simp only [List.map_cons, List.mem_cons] at h
    push_neg at h
    have hne : ¬ k₀ = k := fun hh => h.1 hh.symm
    simp [dictInsert, hne, ih h.2]

theorem dictInsert_keys_of_not_mem {α : Type} {l : List (String × α)} {k : String}
    {v : α} (h : k ∉ l.map Prod.fst) :
    (dictInsert k v l).map Prod.fst = l.map Prod.fst ++ [k] := by
  induction l with
  | nil => rfl
  | cons p t ih =>
    obtain ⟨k₀, v₀⟩ := p
    simp only [List.map_cons, List.mem_cons] at h
    push_neg at h
    have hne : ¬ k₀ = k := fun hh => h.1 hh.symm
    simp [dictInsert, hne, ih h.2]

/-- Python `buildNodes` succeeds exactly when every entry carries both required
fields (the fallback for `label` is the outer key, so `label` is never
required). -/
theorem buildNodes_ok_iff :
    ∀ (data : List (String × NodeDict)) (acc : List (String × Node)),
      exceptOk (buildNodes data acc) = true ↔
        ∀ p ∈ data, p.2.position.isSome = true ∧ p.2.connected_nodes.isSome = true := by
  intro data
  induction data with
  | nil => intro acc; simp [buildNodes, exceptOk]
  | cons p rest ih =>
    intro acc
    obtain ⟨label, nd⟩ := p
    cases hp : nd.position with
    | none => simp [buildNodes, buildNode, hp, exceptOk]
    | some pos =>
      cases hc : nd.connected_nodes with
      | none => simp [buildNodes, buildNode, hp, hc, exceptOk]
      | some cns => simp [buildNodes, buildNode, hp, hc, ih]

/-- Contents of a successful `buildNodes` run: one node per entry, stored
under the entry's key, built from the entry's fields. -/
theorem buildNodes_content :
    ∀ (data : List (String × NodeDict)) (acc ns : List (String × Node)),
      (data.map Prod.fst).Nodup →
      (∀ p ∈ data, p.1 ∉ acc.map Prod.fst) →
      buildNodes data acc = .ok ns →
      ns.length = acc.length + data.length ∧
      (∀ k v, dictLookup k acc = some v → k ∉ data.map Prod.fst →
        dictLookup k ns = some v) ∧
      ∀ p ∈ data, ∃ pos cns, p.2.position = some pos ∧ p.2.connected_nodes = some cns ∧
        dictLookup p.1 ns = some
          { label := p.2.label.getD p.1, position := pos, connected_nodes := cns,
            successive := [] } := by
  intro data
  induction data with
  | nil =>
    intro acc ns _ _ h
    simp only [buildNodes, Except.ok.injEq] at h
    subst h
    exact ⟨by simp, fun k v hv _ => hv, by simp⟩
  | cons p rest ih =>
    intro acc ns hnd hfresh hok
    obtain ⟨label, nd⟩ := p
    simp only [List.map_cons, List.nodup_cons] at hnd
    cases hp : nd.position with
    | none => simp [buildNodes, buildNode, hp] at hok
    | some pos =>
      cases hc : nd.connected_nodes with
      | none => simp [buildNodes, buildNode, hp, hc] at hok
      | some cns =>
        simp only [buildNodes, buildNode, hp, hc] at hok
        set node : Node :=
          { label := nd.label.getD label, position := pos, connected_nodes := cns,
            successive := [] } with hnode
        have hlabelfresh : label ∉ acc.map Prod.fst := hfresh (label, nd) (by simp)
        have hfresh' : ∀ q ∈ rest, q.1 ∉ (dictInsert label node acc).map Prod.fst := by
          intro q hq
          rw [dictInsert_keys_of_not_mem hlabelfresh]
          simp only [List.mem_append, List.mem_singleton]
          rintro (hk | hk)
          · exact hfresh q (List.mem_cons_of_mem _ hq) hk
          · exact hnd.1 (hk ▸ List.mem_map_of_mem Prod.fst hq)
        obtain ⟨hlen, hpres, hcontent⟩ :=
          ih (dictInsert label node acc) ns hnd.2 hfresh' hok
        refine ⟨?_, ?_, ?_⟩
        · rw [hlen, dictInsert_length_of_not_mem hlabelfresh]
          simp only [List.length_cons]
          omega
        · intro k v hv hk
          simp only [List.map_cons, List.mem_cons] at hk
          push_neg at hk
          refine hpres k v ?_ hk.2
          rw [dictLookup_dictInsert_ne (fun hh : label = k => hk.1 hh.symm)]
          exact hv
        · intro q hq
          rcases List.mem_cons.mp hq with rfl | hq
          · refine ⟨pos, cns, hp, hc, ?_⟩
            refine hpres label node ?_ hnd.1
            exact dictLookup_dictInsert_self
          · exact hcontent q hq

/-- C5 amended: building the Network fails exactly when some node entry is
missing a required field (`position` or `connected_nodes`; a missing
`label` falls back to the outer key); on success it constructs exactly one
Node per entry, stored under the entry's key, with empty wiring and no
lines.  Contrary to the original claim, an adjacency list referencing an
absent neighbor label is *not* rejected here (see the counterexample); that
inconsistency only surfaces later, in `connect`. -/
theorem C5_build_amended (data : List (String × NodeDict))
    (hnd : (data.map Prod.fst).Nodup) :
    (exceptOk (Network.build data) = true ↔
      ∀ p ∈ data, p.2.position.isSome = true ∧ p.2.connected_nodes.isSome = true) ∧
    ∀ net, Network.build data = .ok net →
      net.lines = [] ∧
      net.nodes.length = data.length ∧
      ∀ p ∈ data, ∃ pos cns, p.2.position = some pos ∧ p.2.connected_nodes = some cns ∧
        dictLookup p.1 net.nodes = some
          { label := p.2.label.getD p.1, position := pos, connected_nodes := cns,
            successive := [] } := by
  constructor
  · rw [← buildNodes_ok_iff data []]
    unfold Network.build
    cases buildNodes data [] <;> simp [exceptOk]
  · intro net hnet
    unfold Network.build at hnet
    cases hb : buildNodes data [] with
    | error m => rw [hb] at hnet; exact absurd hnet (by simp)
    | ok ns =>
      rw [hb] at hnet
      injection hnet with hnet
      subst hnet
      obtain ⟨hlen, -, hcontent⟩ :=
        buildNodes_content data [] ns hnd (by simp) hb
      exact ⟨rfl, by simpa using hlen, hcontent⟩

/-- C5 witness: the triangle description, which carries all required fields
and has pairwise distinct labels. -/
theorem C5_witness :
    (triData.map Prod.fst).Nodup ∧
    ((exceptOk (Network.build triData) = true ↔
      ∀ p ∈ triData, p.2.position.isSome = true ∧ p.2.connected_nodes.isSome = true) ∧
    ∀ net, Network.build triData = .ok net →
      net.lines = [] ∧
      net.nodes.length = triData.length ∧
      ∀ p ∈ triData, ∃ pos cns, p.2.position = some pos ∧ p.2.connected_nodes = some cns ∧
        dictLookup p.1 net.nodes = some
          { label := p.2.label.getD p.1, position := pos, connected_nodes := cns,
            successive := [] }) :=
  ⟨by decide, C5_build_amended triData (by decide)⟩

/-- A one-node description whose adjacency list references the absent label
`Z`. -/
def cexBuildData : List (String × NodeDict) :=
  [("A", { label := none, position := some (0, 0), connected_nodes := some ["Z"] })]

/-- C5 counterexample: the description references the neighbor label `Z`,
which is not present as a node entry, yet building the Network succeeds —
the constructor performs no such validation, contradicting the claim that
it must fail with a configuration error. -/
theorem C5_counterexample :
    ("Z" ∈ (cexBuildData.map fun p => p.2.connected_nodes.getD []).flatten ∧
      "Z" ∉ cexBuildData.map Prod.fst) ∧
    exceptOk (Network.build cexBuildData) = true := by
  refine ⟨⟨by decide, by decide⟩, by decide⟩

/-! ## Claims C6 and C9: `Network.connect`

The wiring phase only ever grows the `successive` maps and never touches a
node's or line's other fields, so its effect is captured by the following
growth preorders on the registries. -/

theorem dictLookup_append_some {α : Type} {l l₂ : List (String × α)} {k : String}
    {v : α} (h : dictLookup k l = some v) : dictLookup k (l ++ l₂) = some v := by
  induction l with
  | nil => simp [dictLookup] at h
  | cons p t ih =>
    obtain ⟨k₀, v₀⟩ := p
    by_cases hk : k₀ = k
    · simp only [dictLookup, if_pos hk] at h ⊢
      exact h
    · simp only [dictLookup, if_neg hk] at h ⊢
      exact ih h

theorem dictLookup_append_none {α : Type} {l l₂ : List (String × α)} {k : String}
    (h : dictLookup k l = none) : dictLookup k (l ++ l₂) = dictLookup k l₂ := by
  induction l with
  | nil => rfl
  | cons p t ih =>
    obtain ⟨k₀, v₀⟩ := p
    by_cases hk : k₀ = k
    · simp [dictLookup, if_pos hk] at h
    · simp only [dictLookup, if_neg hk] at h ⊢
      exact ih h

theorem entry_mem_isSome {α : Type} {l : List (String × α)} {k : String} {v : α}
    (h : (k, v) ∈ l) : (dictLookup k l).isSome = true :=
  dictLookup_isSome_iff.mpr (List.mem_map_of_mem Prod.fst h)

theorem dictLookup_of_mem_nodup {α : Type} {l : List (String × α)} {k : String} {v : α}
    (hnd : (l.map Prod.fst).Nodup) (h : (k, v) ∈ l) : dictLookup k l = some v := by
  induction l with
  | nil => simp at h
  | cons p t ih =>
    obtain ⟨k₀, v₀⟩ := p
    simp only [List.map_cons, List.nodup_cons] at hnd
    rcases List.mem_cons.mp h with heq | hmem
    · injection heq with h1 h2
      subst h1; subst h2
      simp [dictLookup]
    · have hk : ¬ k₀ = k := by
        intro hh
        subst hh
        exact hnd.1 (List.mem_map_of_mem Prod.fst hmem)
      simp only [dictLookup, if_neg hk]
      exact ih hnd.2 hmem

/-- Wiring growth on the node registry: same keys in the same order, every
stored node keeps its label, position and adjacency, and its `successive`
key set only grows. -/
def NodesLE (ns ns' : List (String × Node)) : Prop :=
  ns'.map Prod.fst = ns.map Prod.fst ∧
  ∀ k node, dictLookup k ns = some node → ∃ node', dictLookup k ns' = some node' ∧
    node'.label = node.label ∧ node'.position = node.position ∧
    node'.connected_nodes = node.connected_nodes ∧
    ∀ x ∈ node.successive, x ∈ node'.successive

/-- Wiring growth on the line registry: same keys in the same order, every
stored line keeps its label and length, and its `successive` label set only
grows. -/
def LinesLE (ls ls' : List (String × Line)) : Prop :=
  ls'.map Prod.fst = ls.map Prod.fst ∧
  ∀ k line, dictLookup k ls = some line → ∃ line', dictLookup k ls' = some line' ∧
    line'.label = line.label ∧ line'.length = line.length ∧
    ∀ x ∈ line.successive, x ∈ line'.successive

theorem nodesLE_refl (ns : List (String × Node)) : NodesLE ns ns :=
  ⟨rfl, fun k node h => ⟨node, h, rfl, rfl, rfl, fun _ hx => hx⟩⟩

theorem nodesLE_trans {n1 n2 n3 : List (String × Node)}
    (h1 : NodesLE n1 n2) (h2 : NodesLE n2 n3) : NodesLE n1 n3 := by
  refine ⟨h2.1.trans h1.1, fun k node h => ?_⟩
  obtain ⟨node', hl', a1, a2, a3, a4⟩ := h1.2 k node h
  obtain ⟨node'', hl'', b1, b2, b3, b4⟩ := h2.2 k node' hl'
  exact ⟨node'', hl'', b1.trans a1, b2.trans a2, b3.trans a3,
    fun x hx => b4 x (a4 x hx)⟩

theorem linesLE_refl (ls : List (String × Line)) : LinesLE ls ls :=
  ⟨rfl, fun k line h => ⟨line, h, rfl, rfl, fun _ hx => hx⟩⟩

theorem linesLE_trans {l1 l2 l3 : List (String × Line)}
    (h1 : LinesLE l1 l2) (h2 : LinesLE l2 l3) : LinesLE l1 l3 := by
  refine ⟨h2.1.trans h1.1, fun k line h => ?_⟩
  obtain ⟨line', hl', a1, a2, a3⟩ := h1.2 k line h
  obtain ⟨line'', hl'', b1, b2, b3⟩ := h2.2 k line' hl'
  exact ⟨line'', hl'', b1.trans a1, b2.trans a2, fun x hx => b3 x (a3 x hx)⟩

theorem NodesLE.isSome_iff {ns ns' : List (String × Node)} (h : NodesLE ns ns')
    (k : String) : (dictLookup k ns').isSome = (dictLookup k ns).isSome := by
  by_cases hk : (dictLookup k ns).isSome = true
  · rw [hk, dictLookup_isSome_iff, h.1, ← dictLookup_isSome_iff, hk]
  · rw [Bool.not_eq_true] at hk
    rw [hk]
    by_cases hk' : (dictLookup k ns').isSome = true
    · rw [dictLookup_isSome_iff, h.1, ← dictLookup_isSome_iff, hk] at hk'
      exact absurd hk' (by simp)
    · rw [Bool.not_eq_true] at hk'
      exact hk'

/-- Specification of the inner line-creation loop: when every neighbor
label exists, it succeeds, it only appends fresh entries (existing lookups
preserved), afterwards every pair key of the loop has a line, every entry
is an old one or one freshly created from a neighbor's position, and
key-uniqueness is preserved. -/
theorem mkLinesInner_spec (net : Network) (hyp : ℚ → ℚ → ℚ) (a : String) (ax ay : ℚ) :
    ∀ (bs : List String) (ls : List (String × Line)),
      (∀ b ∈ bs, (dictLookup b net.nodes).isSome = true) →
      ∃ ls', mkLinesInner net hyp a ax ay bs ls = .ok ls' ∧
        (∀ k v, dictLookup k ls = some v → dictLookup k ls' = some v) ∧
        (∀ b ∈ bs, (dictLookup (a ++ b) ls').isSome = true) ∧
        (∀ k line, dictLookup k ls' = some line →
          dictLookup k ls = some line ∨
          ∃ b node_b, b ∈ bs ∧ dictLookup b net.nodes = some node_b ∧ k = a ++ b ∧
            line = { label := a ++ b
                     length := hyp (node_b.position.1 - ax) (node_b.position.2 - ay)
                     successive := [] }) ∧
        ((ls.map Prod.fst).Nodup → (ls'.map Prod.fst).Nodup) := by
  intro bs
  induction bs with
  | nil =>
    intro ls _
    exact ⟨ls, rfl, fun k v h => h, by simp, fun k line h => Or.inl h, fun h => h⟩
  | cons b rest ih =>
    intro ls hsome
    obtain ⟨node_b, hnode_b⟩ :=
      Option.isSome_iff_exists.mp (hsome b (by simp))
    have hrest : ∀ x ∈ rest, (dictLookup x net.nodes).isSome = true :=
      fun x hx => hsome x (List.mem_cons_of_mem _ hx)
    by_cases hk : (dictLookup (a ++ b) ls).isSome = true
    · obtain ⟨ls', hok, hpres, hall, hcontent, hnd⟩ := ih ls hrest
      refine ⟨ls', ?_, hpres, ?_, ?_, hnd⟩
      · simp only [mkLinesInner, hnode_b, hk, if_true]
        exact hok
      · intro x hx
        rcases List.mem_cons.mp hx with rfl | hx
        · obtain ⟨v, hv⟩ := Option.isSome_iff_exists.mp hk
          simp [hpres _ _ hv]
        · exact hall x hx
      · intro k line hl
        rcases hcontent k line hl with hold | ⟨b', node_b', hb', hnb', rfl, rfl⟩
        · exact Or.inl hold
        · exact Or.inr ⟨b', node_b', List.mem_cons_of_mem _ hb', hnb', rfl, rfl⟩
    · have hknone : dictLookup (a ++ b) ls = none := by
        cases h' : dictLookup (a ++ b) ls
        · rfl
        · exact absurd (by simp [h']) hk
      set newLine : Line :=
        { label := a ++ b
          length := hyp (node_b.position.1 - ax) (node_b.position.2 - ay)
          successive := [] } with hnew
      obtain ⟨ls', hok, hpres, hall, hcontent, hnd⟩ :=
        ih (ls ++ [(a ++ b, newLine)]) hrest
      have hpres0 : ∀ k v, dictLookup k ls = some v →
          dictLookup k (ls ++ [(a ++ b, newLine)]) = some v :=
        fun k v hv => dictLookup_append_some hv
      refine ⟨ls', ?_, fun k v hv => hpres k v (hpres0 k v hv), ?_, ?_, ?_⟩
      · simp only [mkLinesInner, hnode_b, hknone, Option.isSome_none,
          Bool.false_eq_true, if_false]
        exact hok
      · intro x hx
        rcases List.mem_cons.mp hx with rfl | hx
        · have : dictLookup (a ++ x) (ls ++ [(a ++ x, newLine)]) = some newLine := by
            rw [dictLookup_append_none hknone]
            simp [dictLookup]
          simp [hpres _ _ this]
        · exact hall x hx
      · intro k line hl
        rcases hcontent k line hl with hold | ⟨b', node_b', hb', hnb', rfl, rfl⟩
        · by_cases hik : dictLookup k ls = none
          · rw [dictLookup_append_none hik] at hold
            by_cases hkey : a ++ b = k
            · subst hkey
              simp only [dictLookup, if_pos rfl] at hold
              injection hold with hold
              exact Or.inr ⟨b, node_b, by simp, hnode_b, rfl, hold.symm⟩
            · simp [dictLookup, hkey] at hold
          · obtain ⟨v, hv⟩ := Option.ne_none_iff_exists'.mp hik
            have := hpres0 k v hv
            rw [this] at hold
            injection hold with hold
            subst hold
            exact Or.inl hv
        · exact Or.inr ⟨b', node_b', List.mem_cons_of_mem _ hb', hnb', rfl, rfl⟩
      · intro hnd0
        apply hnd
        rw [List.map_append]
        simp only [List.map_cons, List.map_nil]
        rw [List.nodup_append]
        refine ⟨hnd0, List.nodup_singleton _, fun x hx hx2 => ?_⟩
        rw [List.mem_singleton] at hx2
        subst hx2
        rw [← dictLookup_isSome_iff] at hx
        rw [hknone] at hx
        exact absurd hx (by simp)

/-- The inner line-creation loop is the identity when every pair key is
already present. -/
theorem mkLinesInner_id (net : Network) (hyp : ℚ → ℚ → ℚ) (a : String) (ax ay : ℚ) :
    ∀ (bs : List String) (ls : List (String × Line)),
      (∀ b ∈ bs, (dictLookup b net.nodes).isSome = true) →
      (∀ b ∈ bs, (dictLookup (a ++ b) ls).isSome = true) →
      mkLinesInner net hyp a ax ay bs ls = .ok ls := by
  intro bs
  induction bs with
  | nil => intro ls _ _; rfl
  | cons b rest ih =>
    intro ls hsome hkeys
    obtain ⟨node_b, hnode_b⟩ := Option.isSome_iff_exists.mp (hsome b (by simp))
    simp only [mkLinesInner, hnode_b, hkeys b (by simp), if_true]
    exact ih ls (fun x hx => hsome x (List.mem_cons_of_mem _ hx))
      (fun x hx => hkeys x (List.mem_cons_of_mem _ hx))

/-- Success of the inner loop forces every neighbor label to be a node. -/
theorem mkLinesInner_closure (net : Network) (hyp : ℚ → ℚ → ℚ) (a : String) (ax ay : ℚ) :
    ∀ (bs : List String) (ls ls' : List (String × Line)),
      mkLinesInner net hyp a ax ay bs ls = .ok ls' →
      ∀ b ∈ bs, (dictLookup b net.nodes).isSome = true := by
  intro bs
  induction bs with
  | nil => intro ls ls' _ b hb; simp at hb
  | cons b rest ih =>
    intro ls ls' h x hx
    simp only [mkLinesInner] at h
    cases hnb : dictLookup b net.nodes with
    | none => rw [hnb] at h; exact absurd h (by simp)
    | some node_b =>
      rw [hnb] at h
      rcases List.mem_cons.mp hx with rfl | hx
      · simp [hnb]
      · exact ih _ ls' h x hx


/-- Specification of the outer line-creation loop over the node entries. -/
theorem mkLinesOuter_spec (net : Network) (hyp : ℚ → ℚ → ℚ) :
    ∀ (entries : List (String × Node)) (ls : List (String × Line)),
      (∀ p ∈ entries, ∀ b ∈ p.2.connected_nodes, (dictLookup b net.nodes).isSome = true) →
      ∃ ls', mkLinesOuter net hyp entries ls = .ok ls' ∧
        (∀ k v, dictLookup k ls = some v → dictLookup k ls' = some v) ∧
        (∀ p ∈ entries, ∀ b ∈ p.2.connected_nodes,
          (dictLookup (p.1 ++ b) ls').isSome = true) ∧
        (∀ k line, dictLookup k ls' = some line →
          dictLookup k ls = some line ∨
          ∃ a node_a b node_b, (a, node_a) ∈ entries ∧ b ∈ node_a.connected_nodes ∧
            dictLookup b net.nodes = some node_b ∧ k = a ++ b ∧
            line = { label := a ++ b
                     length := hyp (node_b.position.1 - node_a.position.1)
                                   (node_b.position.2 - node_a.position.2)
                     successive := [] }) ∧
        ((ls.map Prod.fst).Nodup → (ls'.map Prod.fst).Nodup) := by
  intro entries
  induction entries with
  | nil =>
    intro ls _
    exact ⟨ls, rfl, fun k v h => h, by simp, fun k line h => Or.inl h, fun h => h⟩
  | cons p rest ih =>
    intro ls hcl
    obtain ⟨a, node_a⟩ := p
    obtain ⟨ls₁, hok₁, hpres₁, hall₁, hcontent₁, hnd₁⟩ :=
      mkLinesInner_spec net hyp a node_a.position.1 node_a.position.2
        node_a.connected_nodes ls (hcl (a, node_a) (by simp))
    obtain ⟨ls', hok, hpres, hall, hcontent, hnd⟩ :=
      ih ls₁ (fun q hq => hcl q (List.mem_cons_of_mem _ hq))
    refine ⟨ls', ?_, fun k v hv => hpres k v (hpres₁ k v hv), ?_, ?_,
      fun h => hnd (hnd₁ h)⟩
    · simp only [mkLinesOuter, hok₁]
      exact hok
    · intro q hq b hb
      rcases List.mem_cons.mp hq with rfl | hq
      · obtain ⟨v, hv⟩ := Option.isSome_iff_exists.mp (hall₁ b hb)
        simp [hpres _ _ hv]
      · exact hall q hq b hb
    · intro k line hl
      rcases hcontent k line hl with hold | ⟨a', na', b', nb', ha', hb', hnb', rfl, rfl⟩
      · rcases hcontent₁ k line hold with hold₁ | ⟨b', nb', hb', hnb', rfl, rfl⟩
        · exact Or.inl hold₁
        · exact Or.inr ⟨a, node_a, b', nb', by simp, hb', hnb', rfl, rfl⟩
      · exact Or.inr ⟨a', na', b', nb', List.mem_cons_of_mem _ ha', hb', hnb', rfl, rfl⟩

/-- The outer line-creation loop is the identity when every pair key is
already present. -/
theorem mkLinesOuter_id (net : Network) (hyp : ℚ → ℚ → ℚ) :
    ∀ (entries : List (String × Node)) (ls : List (String × Line)),
      (∀ p ∈ entries, ∀ b ∈ p.2.connected_nodes, (dictLookup b net.nodes).isSome = true) →
      (∀ p ∈ entries, ∀ b ∈ p.2.connected_nodes,
        (dictLookup (p.1 ++ b) ls).isSome = true) →
      mkLinesOuter net hyp entries ls = .ok ls := by
  intro entries
  induction entries with
  | nil => intro ls _ _; rfl
  | cons p rest ih =>
    intro ls hcl hkeys
    obtain ⟨a, node_a⟩ := p
    have h₁ := mkLinesInner_id net hyp a node_a.position.1 node_a.position.2
      node_a.connected_nodes ls (hcl (a, node_a) (by simp)) (hkeys (a, node_a) (by simp))
    simp only [mkLinesOuter, h₁]
    exact ih ls (fun q hq => hcl q (List.mem_cons_of_mem _ hq))
      (fun q hq => hkeys q (List.mem_cons_of_mem _ hq))

/-- Success of the line-creation phase forces every adjacency label of every
entry to be a node of the network. -/
theorem mkLinesOuter_closure (net : Network) (hyp : ℚ → ℚ → ℚ) :
    ∀ (entries : List (String × Node)) (ls ls' : List (String × Line)),
      mkLinesOuter net hyp entries ls = .ok ls' →
      ∀ p ∈ entries, ∀ b ∈ p.2.connected_nodes, (dictLookup b net.nodes).isSome = true := by
  intro entries
  induction entries with
  | nil => intro ls ls' _ p hp; simp at hp
  | cons q rest ih =>
    intro ls ls' h p hp b hb
    obtain ⟨a, node_a⟩ := q
    simp only [mkLinesOuter] at h
    cases hin : mkLinesInner net hyp a node_a.position.1 node_a.position.2
        node_a.connected_nodes ls with
    | error m => rw [hin] at h; exact absurd h (by simp)
    | ok ls₁ =>
      rw [hin] at h
      rcases List.mem_cons.mp hp with rfl | hp
      · exact mkLinesInner_closure net hyp a node_a.position.1 node_a.position.2
          node_a.connected_nodes ls ls₁ hin b hb
      · exact ih ls₁ ls' h p hp b hb

/-- Specification of the inner wiring loop for one node key `a`: when every
lookup it performs succeeds, it succeeds, it only grows the `successive`
maps, and afterwards every pair `(a, b)` of the loop is wired — the node at
`a` holds the line key and the line at `a ++ b` holds `b`. -/
theorem wireInner_spec (a : String) :
    ∀ (bs : List String) (ns : List (String × Node)) (ls : List (String × Line)),
      (∀ b ∈ bs, (dictLookup (a ++ b) ls).isSome = true ∧
        (dictLookup a ns).isSome = true ∧ (dictLookup b ns).isSome = true) →
      ∃ ns' ls', wireInner a bs (ns, ls) = .ok (ns', ls') ∧
        NodesLE ns ns' ∧ LinesLE ls ls' ∧
        ∀ b ∈ bs,
          (∃ node, dictLookup a ns' = some node ∧ (a ++ b) ∈ node.successive) ∧
          (∃ line, dictLookup (a ++ b) ls' = some line ∧ b ∈ line.successive) := by
  intro bs
  induction bs with
  | nil =>
    intro ns ls _
    exact ⟨ns, ls, rfl, nodesLE_refl ns, linesLE_refl ls, by simp⟩
  | cons b rest ih =>
    intro ns ls hpre
    obtain ⟨hab, ha, hb⟩ := hpre b (by simp)
    obtain ⟨line_ab, hline⟩ := Option.isSome_iff_exists.mp hab
    obtain ⟨node_a, hnode⟩ := Option.isSome_iff_exists.mp ha
    obtain ⟨node_b, hnodeb⟩ := Option.isSome_iff_exists.mp hb
    set ns₁ := dictInsert a
      { node_a with successive := keyInsert (a ++ b) node_a.successive } ns with hns₁
    set ls₁ := dictInsert (a ++ b)
      { line_ab with successive := keyInsert b line_ab.successive } ls with hls₁
    have hmono₁ : NodesLE ns ns₁ := by
      constructor
      · exact dictInsert_keys_mem (dictLookup_mem_keys hnode)
      · intro k node hk
        by_cases hka : a = k
        · subst hka
          rw [hnode] at hk
          injection hk with hk
          subst hk
          exact ⟨_, dictLookup_dictInsert_self, rfl, rfl, rfl,
            fun x hx => keyInsert_mem.mpr (Or.inl hx)⟩
        · exact ⟨node, by rw [hns₁, dictLookup_dictInsert_ne hka]; exact hk,
            rfl, rfl, rfl, fun _ hx => hx⟩
    have hmono₂ : LinesLE ls ls₁ := by
      constructor
      · exact dictInsert_keys_mem (dictLookup_mem_keys hline)
      · intro k line hk
        by_cases hka : a ++ b = k
        · subst hka
          rw [hline] at hk
          injection hk with hk
          subst hk
          exact ⟨_, dictLookup_dictInsert_self, rfl, rfl,
            fun x hx => keyInsert_mem.mpr (Or.inl hx)⟩
        · exact ⟨line, by rw [hls₁, dictLookup_dictInsert_ne hka]; exact hk,
            rfl, rfl, fun _ hx => hx⟩
    have hpre' : ∀ x ∈ rest, (dictLookup (a ++ x) ls₁).isSome = true ∧
        (dictLookup a ns₁).isSome = true ∧ (dictLookup x ns₁).isSome = true := by
      intro x hx
      obtain ⟨h1, h2, h3⟩ := hpre x (List.mem_cons_of_mem _ hx)
      refine ⟨?_, ?_, ?_⟩
      · rw [dictLookup_isSome_iff, hmono₂.1, ← dictLookup_isSome_iff]
        exact h1
      · rw [dictLookup_isSome_iff, hmono₁.1, ← dictLookup_isSome_iff]
        exact h2
      · rw [dictLookup_isSome_iff, hmono₁.1, ← dictLookup_isSome_iff]
        exact h3
    obtain ⟨ns', ls', hok, hm₁, hm₂, hcontent⟩ := ih ns₁ ls₁ hpre'
    refine ⟨ns', ls', ?_, nodesLE_trans hmono₁ hm₁, linesLE_trans hmono₂ hm₂, ?_⟩
    · simp only [wireInner, hline, hnode, hnodeb]
      exact hok
    · intro x hx
      rcases List.mem_cons.mp hx with rfl | hx
      · constructor
        · obtain ⟨node', hl', _, _, _, hsub⟩ :=
            hm₁.2 a _ dictLookup_dictInsert_self
          exact ⟨node', hl', hsub _ (keyInsert_mem.mpr (Or.inr rfl))⟩
        · obtain ⟨line', hl', _, _, hsub⟩ :=
            hm₂.2 (a ++ x) _ dictLookup_dictInsert_self
          exact ⟨line', hl', hsub _ (keyInsert_mem.mpr (Or.inr rfl))⟩
      · exact hcontent x hx

/-- The inner wiring loop is the identity when every pair of the loop is
already wired. -/
theorem wireInner_id (a : String) :
    ∀ (bs : List String) (ns : List (String × Node)) (ls : List (String × Line)),
      (∀ b ∈ bs,
        (∃ node, dictLookup a ns = some node ∧ (a ++ b) ∈ node.successive) ∧
        (dictLookup b ns).isSome = true ∧
        (∃ line, dictLookup (a ++ b) ls = some line ∧ b ∈ line.successive)) →
      wireInner a bs (ns, ls) = .ok (ns, ls) := by
  intro bs
  induction bs with
  | nil => intro ns ls _; rfl
  | cons b rest ih =>
    intro ns ls hpre
    obtain ⟨⟨node_a, hnode, hsucc⟩, hb, ⟨line_ab, hline, hdest⟩⟩ := hpre b (by simp)
    obtain ⟨node_b, hnodeb⟩ := Option.isSome_iff_exists.mp hb
    have e₁ : dictInsert a
        { node_a with successive := keyInsert (a ++ b) node_a.successive } ns = ns := by
      rw [keyInsert_of_mem hsucc]
      exact dictInsert_self hnode
    have e₂ : dictInsert (a ++ b)
        { line_ab with successive := keyInsert b line_ab.successive } ls = ls := by
      rw [keyInsert_of_mem hdest]
      exact dictInsert_self hline
    simp only [wireInner, hline, hnode, hnodeb, e₁, e₂]
    exact ih ns ls (fun x hx => hpre x (List.mem_cons_of_mem _ hx))

/-- Specification of the outer wiring loop: success, growth, and afterwards
every adjacency pair of every processed entry is wired. -/
theorem wireOuter_spec :
    ∀ (entries : List (String × Node)) (ns : List (String × Node))
      (ls : List (String × Line)),
      (∀ p ∈ entries, ∀ b ∈ p.2.connected_nodes,
        (dictLookup (p.1 ++ b) ls).isSome = true ∧
        (dictLookup p.1 ns).isSome = true ∧ (dictLookup b ns).isSome = true) →
      ∃ ns' ls', wireOuter entries (ns, ls) = .ok (ns', ls') ∧
        NodesLE ns ns' ∧ LinesLE ls ls' ∧
        ∀ p ∈ entries, ∀ b ∈ p.2.connected_nodes,
          (∃ node, dictLookup p.1 ns' = some node ∧ (p.1 ++ b) ∈ node.successive) ∧
          (∃ line, dictLookup (p.1 ++ b) ls' = some line ∧ b ∈ line.successive) := by
  intro entries
  induction entries with
  | nil =>
    intro ns ls _
    exact ⟨ns, ls, rfl, nodesLE_refl ns, linesLE_refl ls, by simp⟩
  | cons p rest ih =>
    intro ns ls hpre
    obtain ⟨a, node_a⟩ := p
    obtain ⟨ns₁, ls₁, hok₁, hm₁, hl₁, hcontent₁⟩ :=
      wireInner_spec a node_a.connected_nodes ns ls (hpre (a, node_a) (by simp))
    have hpre' : ∀ q ∈ rest, ∀ b ∈ q.2.connected_nodes,
        (dictLookup (q.1 ++ b) ls₁).isSome = true ∧
        (dictLookup q.1 ns₁).isSome = true ∧ (dictLookup b ns₁).isSome = true := by
      intro q hq b hb
      obtain ⟨h1, h2, h3⟩ := hpre q (List.mem_cons_of_mem _ hq) b hb
      refine ⟨?_, ?_, ?_⟩
      · rw [dictLookup_isSome_iff, hl₁.1, ← dictLookup_isSome_iff]
        exact h1
      · rw [dictLookup_isSome_iff, hm₁.1, ← dictLookup_isSome_iff]
        exact h2
      · rw [dictLookup_isSome_iff, hm₁.1, ← dictLookup_isSome_iff]
        exact h3
    obtain ⟨ns', ls', hok, hm, hl, hcontent⟩ := ih ns₁ ls₁ hpre'
    refine ⟨ns', ls', ?_, nodesLE_trans hm₁ hm, linesLE_trans hl₁ hl, ?_⟩
    · simp only [wireOuter, hok₁]
      exact hok
    · intro q hq b hb
      rcases List.mem_cons.mp hq with rfl | hq
      · obtain ⟨⟨node₁, hn₁, hs₁⟩, ⟨line₁, hln₁, hd₁⟩⟩ := hcontent₁ b hb
        constructor
        · obtain ⟨node', hl', _, _, _, hsub⟩ := hm.2 _ _ hn₁
          exact ⟨node', hl', hsub _ hs₁⟩
        · obtain ⟨line', hl', _, _, hsub⟩ := hl.2 _ _ hln₁
          exact ⟨line', hl', hsub _ hd₁⟩
      · exact hcontent q hq b hb

/-- The outer wiring loop is the identity when every adjacency pair of every
entry is already wired. -/
theorem wireOuter_id :
    ∀ (entries : List (String × Node)) (ns : List (String × Node))
      (ls : List (String × Line)),
      (∀ p ∈ entries, ∀ b ∈ p.2.connected_nodes,
        (∃ node, dictLookup p.1 ns = some node ∧ (p.1 ++ b) ∈ node.successive) ∧
        (dictLookup b ns).isSome = true ∧
        (∃ line, dictLookup (p.1 ++ b) ls = some line ∧ b ∈ line.successive)) →
      wireOuter entries (ns, ls) = .ok (ns, ls) := by
  intro entries
  induction entries with
  | nil => intro ns ls _; rfl
  | cons p rest ih =>
    intro ns ls hpre
    obtain ⟨a, node_a⟩ := p
    have h₁ := wireInner_id a node_a.connected_nodes ns ls (hpre (a, node_a) (by simp))
    simp only [wireOuter, h₁]
    exact ih ns ls (fun q hq => hpre q (List.mem_cons_of_mem _ hq))

/-- Destructure a successful `connect` into its two phases. -/
theorem connect_parts {hyp : ℚ → ℚ → ℚ} {net net' : Network}
    (h : Network.connect hyp net = .ok net') :
    ∃ lines1, mkLinesOuter net hyp net.nodes net.lines = .ok lines1 ∧
      wireOuter net.nodes (net.nodes, lines1) = .ok (net'.nodes, net'.lines) := by
  unfold Network.connect at h
  cases h1 : mkLinesOuter net hyp net.nodes net.lines with
  | error m => rw [h1] at h; exact absurd h (by simp)
  | ok lines1 =>
    rw [h1] at h
    dsimp only at h
    cases h2 : wireOuter net.nodes (net.nodes, lines1) with
    | error m => rw [h2] at h; exact absurd h (by simp)
    | ok st =>
      obtain ⟨ns, ls⟩ := st
      rw [h2] at h
      dsimp only at h
      have hEq : Network.mk ns ls = net' := Except.ok.inj h
      subst hEq
      exact ⟨lines1, rfl, h2⟩

/-- C9: calling `connect()` a second time on an already-wired Network is a
no-op — the registries (every Line, its length, and all `successive`
mappings of every Node and Line) are exactly the same after the second call
as after the first. -/
theorem C9_connect_idempotent (hyp : ℚ → ℚ → ℚ) (net net' : Network)
    (hnd : (net.nodes.map Prod.fst).Nodup)
    (h : Network.connect hyp net = .ok net') :
    Network.connect hyp net' = .ok net' := by
  obtain ⟨lines1, h1, h2⟩ := connect_parts h
  have hcl := mkLinesOuter_closure net hyp net.nodes net.lines lines1 h1
  obtain ⟨lines1', h1', hpres₁, hall₁, hcontent₁, hndL₁⟩ :=
    mkLinesOuter_spec net hyp net.nodes net.lines hcl
  rw [h1] at h1'
  have hL : lines1 = lines1' := Except.ok.inj h1'
  subst hL
  have hpreW : ∀ p ∈ net.nodes, ∀ b ∈ p.2.connected_nodes,
      (dictLookup (p.1 ++ b) lines1).isSome = true ∧
      (dictLookup p.1 net.nodes).isSome = true ∧
      (dictLookup b net.nodes).isSome = true := by
    intro p hp b hb
    obtain ⟨k, v⟩ := p
    exact ⟨hall₁ (k, v) hp b hb, entry_mem_isSome hp, hcl (k, v) hp b hb⟩
  obtain ⟨ns', ls', hokW, hmN, hmL, hcontent⟩ :=
    wireOuter_spec net.nodes net.nodes lines1 hpreW
  rw [h2] at hokW
  have hPair : (net'.nodes, net'.lines) = (ns', ls') := Except.ok.inj hokW
  have e1 : net'.nodes = ns' := congrArg Prod.fst hPair
  have e2 : net'.lines = ls' := congrArg Prod.snd hPair
  subst e1
  subst e2
  have hkeysN : net'.nodes.map Prod.fst = net.nodes.map Prod.fst := hmN.1
  have hndN' : (net'.nodes.map Prod.fst).Nodup := by rw [hkeysN]; exact hnd
  have hentry : ∀ p ∈ net'.nodes, ∃ node₀,
      dictLookup p.1 net.nodes = some node₀ ∧
      p.2.connected_nodes = node₀.connected_nodes := by
    intro p hp
    obtain ⟨k, node'⟩ := p
    have hlook' : dictLookup k net'.nodes = some node' :=
      dictLookup_of_mem_nodup hndN' hp
    have hks : (dictLookup k net.nodes).isSome = true := by
      rw [dictLookup_isSome_iff, ← hkeysN, ← dictLookup_isSome_iff]
      simp [hlook']
    obtain ⟨node₀, hnode₀⟩ := Option.isSome_iff_exists.mp hks
    obtain ⟨node'', hnode'', _, _, hconn, _⟩ := hmN.2 k node₀ hnode₀
    rw [hlook'] at hnode''
    have : node' = node'' := Option.some.inj hnode''
    subst this
    exact ⟨node₀, hnode₀, hconn⟩
  have hid1 : mkLinesOuter net' hyp net'.nodes net'.lines = .ok net'.lines := by
    apply mkLinesOuter_id
    · intro p hp b hb
      obtain ⟨node₀, hn₀, hconn⟩ := hentry p hp
      rw [hconn] at hb
      rw [dictLookup_isSome_iff, hkeysN, ← dictLookup_isSome_iff]
      exact hcl (p.1, node₀) (dictLookup_mem hn₀) b hb
    · intro p hp b hb
      obtain ⟨node₀, hn₀, hconn⟩ := hentry p hp
      rw [hconn] at hb
      obtain ⟨-, ⟨line', hline', -⟩⟩ := hcontent (p.1, node₀) (dictLookup_mem hn₀) b hb
      simp [hline']
  have hid2 : wireOuter net'.nodes (net'.nodes, net'.lines) =
      .ok (net'.nodes, net'.lines) := by
    apply wireOuter_id
    intro p hp b hb
    obtain ⟨node₀, hn₀, hconn⟩ := hentry p hp
    rw [hconn] at hb
    obtain ⟨hnodeW, hlineW⟩ := hcontent (p.1, node₀) (dictLookup_mem hn₀) b hb
    refine ⟨hnodeW, ?_, hlineW⟩
    rw [dictLookup_isSome_iff, hkeysN, ← dictLookup_isSome_iff]
    exact hcl (p.1, node₀) (dictLookup_mem hn₀) b hb
  simp only [Network.connect, hid1, hid2]

/-- C9 witness: wiring the triangle twice. -/
theorem C9_witness :
    (triNet.nodes.map Prod.fst).Nodup ∧
    Network.connect ratHypot triNet = .ok triWired ∧
    Network.connect ratHypot triWired = .ok triWired :=
  ⟨by decide, by rfl,
    C9_connect_idempotent ratHypot triNet triWired (by decide) (by rfl)⟩

/-- C6 amended: on a well-formed topology (distinct node keys, no lines
yet) whose ordered-pair keying is collision-free — no two wired pairs share
the concatenation `A ++ B` — `connect` creates, for every node `A` and
every neighbor `B` of `A`, exactly one directed Line under the key
`A ++ B` (the line registry's keys are duplicate-free), with length
`hyp` (`math.hypot`) of the coordinate differences of `A`'s and `B`'s
positions; `A`'s `successive` holds that key and the Line's `successive`
holds `B`.

The collision-freedom hypothesis is forced by the counterexample below:
with multi-character labels, two distinct pairs can concatenate to the same
key, and the second pair is then silently attached to the first pair's
line, with the first pair's length. -/
theorem C6_connect_amended (hyp : ℚ → ℚ → ℚ) (net net' : Network)
    (hnd : (net.nodes.map Prod.fst).Nodup)
    (hlines0 : net.lines = [])
    (hinj : ∀ p ∈ net.nodes, ∀ b ∈ p.2.connected_nodes,
      ∀ q ∈ net.nodes, ∀ b' ∈ q.2.connected_nodes,
        p.1 ++ b = q.1 ++ b' → p.1 = q.1 ∧ b = b')
    (h : Network.connect hyp net = .ok net') :
    (net'.lines.map Prod.fst).Nodup ∧
    ∀ a node_a b, dictLookup a net.nodes = some node_a → b ∈ node_a.connected_nodes →
      ∃ node_a' line node_b,
        dictLookup a net'.nodes = some node_a' ∧ (a ++ b) ∈ node_a'.successive ∧
        dictLookup (a ++ b) net'.lines = some line ∧ b ∈ line.successive ∧
        dictLookup b net.nodes = some node_b ∧
        line.label = a ++ b ∧
        line.length = hyp (node_b.position.1 - node_a.position.1)
                          (node_b.position.2 - node_a.position.2) := by
  obtain ⟨lines1, h1, h2⟩ := connect_parts h
  have hcl := mkLinesOuter_closure net hyp net.nodes net.lines lines1 h1
  obtain ⟨lines1', h1', hpres₁, hall₁, hcontent₁, hndL₁⟩ :=
    mkLinesOuter_spec net hyp net.nodes net.lines hcl
  rw [h1] at h1'
  have hL : lines1 = lines1' := Except.ok.inj h1'
  subst hL
  have hpreW : ∀ p ∈ net.nodes, ∀ b ∈ p.2.connected_nodes,
      (dictLookup (p.1 ++ b) lines1).isSome = true ∧
      (dictLookup p.1 net.nodes).isSome = true ∧
      (dictLookup b net.nodes).isSome = true := by
    intro p hp b hb
    obtain ⟨k, v⟩ := p
    exact ⟨hall₁ (k, v) hp b hb, entry_mem_isSome hp, hcl (k, v) hp b hb⟩
  obtain ⟨ns', ls', hokW, hmN, hmL, hcontent⟩ :=
    wireOuter_spec net.nodes net.nodes lines1 hpreW
  rw [h2] at hokW
  have hPair : (net'.nodes, net'.lines) = (ns', ls') := Except.ok.inj hokW
  have e1 : net'.nodes = ns' := congrArg Prod.fst hPair
  have e2 : net'.lines = ls' := congrArg Prod.snd hPair
  subst e1
  subst e2
  constructor
  · rw [hmL.1]
    apply hndL₁
    rw [hlines0]
    exact List.nodup_nil
  · intro a node_a b hnode_a hb
    have hmem : (a, node_a) ∈ net.nodes := dictLookup_mem hnode_a
    obtain ⟨⟨node', hnode', hsucc'⟩, ⟨line', hline', hdest'⟩⟩ :=
      hcontent (a, node_a) hmem b hb
    obtain ⟨line₀, hline₀⟩ :=
      Option.isSome_iff_exists.mp (hall₁ (a, node_a) hmem b hb)
    rcases hcontent₁ (a ++ b) line₀ hline₀ with hold | hcreated
    · rw [hlines0] at hold
      simp [dictLookup] at hold
    · obtain ⟨a', na', b', nb', ha', hb', hnb', hkey, hval⟩ := hcreated
      obtain ⟨haa, hbb⟩ :=
        hinj (a', na') ha' b' hb' (a, node_a) hmem b hb hkey.symm
      dsimp only at haa hbb
      have hna : na' = node_a := by
        have h₀ := dictLookup_of_mem_nodup hnd ha'
        rw [haa, hnode_a] at h₀
        exact (Option.some.inj h₀).symm
      obtain ⟨line'', hline'', hlab, hlen, -⟩ := hmL.2 (a ++ b) line₀ hline₀
      rw [hline'] at hline''
      have hle : line' = line'' := Option.some.inj hline''
      refine ⟨node', line', nb', hnode', hsucc', hline', hdest', ?_, ?_, ?_⟩
      · rw [hbb] at hnb'
        exact hnb'
      · rw [hle, hlab, hval]
        show a' ++ b' = a ++ b
        rw [haa, hbb]
      · rw [hle, hlen, hval]
        show hyp (nb'.position.1 - na'.position.1) (nb'.position.2 - na'.position.2) = _
        rw [hna]

/-- C6 witness: the triangle with single-character labels, whose pair keying
is collision-free. -/
theorem C6_witness :
    ((triNet.nodes.map Prod.fst).Nodup ∧ triNet.lines = [] ∧
      (∀ p ∈ triNet.nodes, ∀ b ∈ p.2.connected_nodes,
        ∀ q ∈ triNet.nodes, ∀ b' ∈ q.2.connected_nodes,
          p.1 ++ b = q.1 ++ b' → p.1 = q.1 ∧ b = b') ∧
      Network.connect ratHypot triNet = .ok triWired) ∧
    ((triWired.lines.map Prod.fst).Nodup ∧
    ∀ a node_a b, dictLookup a triNet.nodes = some node_a →
      b ∈ node_a.connected_nodes →
      ∃ node_a' line node_b,
        dictLookup a triWired.nodes = some node_a' ∧ (a ++ b) ∈ node_a'.successive ∧
        dictLookup (a ++ b) triWired.lines = some line ∧ b ∈ line.successive ∧
        dictLookup b triNet.nodes = some node_b ∧
        line.label = a ++ b ∧
        line.length = ratHypot (node_b.position.1 - node_a.position.1)
                               (node_b.position.2 - node_a.position.2)) :=
  ⟨⟨by decide, by rfl, by decide, by rfl⟩,
    C6_connect_amended ratHypot triNet triWired (by decide) (by rfl) (by decide) (by rfl)⟩

/-- The Euclidean distance specialised to axis-aligned displacements
(`|dx| + |dy|` equals `√(dx² + dy²)` whenever `dx = 0` or `dy = 0`); unlike
square roots it evaluates symbolically, so it instantiates `hyp` in the
counterexample, whose positions are all on one axis. -/
def axisDist (dx dy : ℚ) : ℚ := |dx| + |dy|

/-- A topology whose multi-character labels make the pair keying collide:
the pairs `(A, BX)` and `(AB, X)` both key to `"ABX"`. -/
def collisionData : List (String × NodeDict) :=
  [("A",  { label := none, position := some (0, 0), connected_nodes := some ["BX"] }),
   ("BX", { label := none, position := some (0, 5), connected_nodes := some [] }),
   ("AB", { label := none, position := some (0, 0), connected_nodes := some ["X"] }),
   ("X",  { label := none, position := some (0, 10), connected_nodes := some [] })]

/-- The collision network, built. -/
def collisionNet : Network :=
  exceptD (Network.build collisionData) { nodes := [], lines := [] }

/-- The collision network after `connect`. -/
def collisionWired : Network :=
  exceptD (Network.connect axisDist collisionNet) { nodes := [], lines := [] }

/-- C6 counterexample: in `collisionNet`, node `AB` (at the origin) has the
wired neighbor `X` (at `(0, 10)`, Euclidean distance `10`), yet after
`connect` the line the wiring attaches to this pair — keyed `"AB" ++ "X" =
"ABX"` — is the single line created earlier for the distinct pair
`(A, BX)`: its stored length is the `(A, BX)` distance, which is `5 ≠ 10`,
so no Link carries the Euclidean distance of the pair `(AB, X)`,
contradicting the claim. -/
theorem C6_counterexample :
    Network.connect axisDist collisionNet = .ok collisionWired ∧
    dictLookup "AB" collisionNet.nodes =
      some { label := "AB", position := (0, 0), connected_nodes := ["X"],
             successive := [] } ∧
    dictLookup "X" collisionNet.nodes =
      some { label := "X", position := (0, 10), connected_nodes := [],
             successive := [] } ∧
    axisDist ((0 : ℚ) - 0) ((10 : ℚ) - 0) = 10 ∧
    dictLookup "AB" collisionWired.nodes =
      some { label := "AB", position := (0, 0), connected_nodes := ["X"],
             successive := ["ABX"] } ∧
    (dictLookup ("AB" ++ "X") collisionWired.lines).map Line.label = some "ABX" ∧
    (dictLookup ("AB" ++ "X") collisionWired.lines).map Line.length =
      some (axisDist ((0 : ℚ) - 0) ((5 : ℚ) - 0)) ∧
    axisDist ((0 : ℚ) - 0) ((5 : ℚ) - 0) = 5 ∧
    collisionWired.lines.length = 1 ∧
    (5 : ℚ) ≠ 10 :=
  ⟨by rfl, by rfl, by rfl, by norm_num [axisDist], by rfl, by rfl, by rfl,
    by norm_num [axisDist], by rfl, by norm_num⟩
